import Mathlib

/-!
# Variable-length integer codec (`varint_encoder.cpp`)

A shallow embedding of the four public operations of `VarIntEncoder`
(`Serialize` / `Deserialize`, each for `std::uint64_t` and `std::int64_t`)
and of the internal helpers `FindMSb`, `VarUintSize` and `VarIntSize`.

Modelling conventions:

* `std::uint64_t` is a `Nat` below `2 ^ 64`, `std::int64_t` an `Int` in
  `[-2 ^ 63, 2 ^ 63)`, `std::uint8_t` a `Nat` below `2 ^ 8`.  Every operation
  that can leave the range is followed by an explicit reduction
  (`toU64`, `castI64`, `toU8`).  Bitwise operators on `std::int64_t` act on the
  two's complement bit pattern.
* `std::span<std::uint8_t>` is a `List Nat`.  Indexing never silently goes out
  of range: `readAt` and `writeAt` raise `Fault.outOfBounds` instead.
* C++ overloads get a suffix naming the integer type (`_u64`, `_i64`).
* The reference parameter `value` of `Deserialize` is returned, with its final
  content, next to the returned count.  The signed `Deserialize` can return
  before it assigns `value`, so it also takes the initial content; the unsigned
  one assigns `value = 0` first and needs no such argument.
* `while` loops take a fuel argument; running out of fuel is the distinct
  fault `Fault.outOfFuel`.
-/

namespace VarIntEncoder

/-! ## Machine model -/

/-- Faults of the embedding: an access outside the span, or a loop that did
not finish within its fuel. -/
inductive Fault where
  | outOfBounds
  | outOfFuel
  deriving DecidableEq, Repr

deriving instance DecidableEq for Except

/-- Conversion to `std::uint8_t`. -/
def toU8 (n : Nat) : Nat := n % 2 ^ 8

/-- Conversion to `std::uint64_t`. -/
def toU64 (n : Nat) : Nat := n % 2 ^ 64

/-- Conversion of a signed quantity to `std::uint64_t`: its two's complement
bit pattern. -/
def castU64 (z : Int) : Nat := (z % ((2 ^ 64 : Nat) : Int)).toNat

/-- Conversion of a signed quantity to `std::uint8_t`. -/
def castU8 (z : Int) : Nat := (z % ((2 ^ 8 : Nat) : Int)).toNat

/-- Conversion to `std::int64_t`: the signed value of the low 64 bits of a
bit pattern. -/
def castI64 (n : Nat) : Int :=
  if toU64 n < 2 ^ 63 then (toU64 n : Int) else (toU64 n : Int) - ((2 ^ 64 : Nat) : Int)

/-- `a & b` on `std::int64_t`: computed on the two's complement patterns. -/
def and_i64 (a b : Int) : Int := castI64 (castU64 a &&& castU64 b)

/-- `a | b` on `std::int64_t`: computed on the two's complement patterns. -/
def or_i64 (a b : Int) : Int := castI64 (castU64 a ||| castU64 b)

/-- `a << s` on `std::int64_t`: the pattern is shifted and reduced to 64 bits. -/
def shl_i64 (a : Int) (s : Nat) : Int := castI64 (castU64 a <<< s)

/-- `a >> s` on `std::int64_t`: the arithmetic (sign-preserving) shift. -/
def sar_i64 (a : Int) (s : Nat) : Int := a >>> s

/-- The read `buffer[i]`. -/
def readAt (buffer : List Nat) (i : Nat) : Except Fault Nat :=
  match buffer[i]? with
  | some octet => .ok octet
  | none => .error .outOfBounds

/-- The write `buffer[i] = octet`. -/
def writeAt (buffer : List Nat) (i : Nat) (octet : Nat) : Except Fault (List Nat) :=
  if i < buffer.length then .ok (buffer.set i octet) else .error .outOfBounds

/-! ## Size computation -/

/-- One line `if (v >= std::uint64_t(1) << s) p += s, v >>= s;` of `FindMSb`,
acting on the pair `(p, v)`. -/
def FindMSbStep (s : Nat) (pv : Nat × Nat) : Nat × Nat :=
  if pv.2 ≥ toU64 (1 <<< s) then (pv.1 + s, pv.2 >>> s) else pv

/-- `FindMSb(std::uint64_t v)`. -/
def FindMSb_u64 (v : Nat) : Nat :=
  (FindMSbStep 1 (FindMSbStep 2 (FindMSbStep 4 (FindMSbStep 8
    (FindMSbStep 16 (FindMSbStep 32 (0, v))))))).1

/-- `FindMSb(std::int64_t v)`. -/
def FindMSb_i64 (v : Int) : Nat :=
  if v ≥ 0 then FindMSb_u64 (castU64 v) else FindMSb_u64 (castU64 (~~~v))

/-- `VarUintSize`. -/
def VarUintSize (value : Nat) : Nat := FindMSb_u64 value / 7 + 1

/-- `VarIntSize`. -/
def VarIntSize (value : Int) : Nat := (FindMSb_i64 value + 1) / 7 + 1

/-! ## Encoders -/

/-- The `for (i = octets_required; i > 0; i--)` loop of the unsigned
`Serialize`, entered with loop variable `i`. -/
def SerializeLoop_u64 (octets_required : Nat) :
    Nat → List Nat → Nat → Except Fault (List Nat)
  | 0, buffer, _ => .ok buffer
  | i + 1, buffer, value => do
    let octet := toU8 (value &&& 0x7f)
    let value := value >>> 7
    let octet := if i + 1 ≠ octets_required then toU8 (octet ||| 0x80) else octet
    let buffer ← writeAt buffer (i + 1 - 1) octet
    SerializeLoop_u64 octets_required i buffer value

/-- `Serialize(std::span<std::uint8_t> buffer, std::uint64_t value)`: the
returned count and the buffer after the call. -/
def Serialize_u64 (buffer : List Nat) (value : Nat) : Except Fault (Nat × List Nat) :=
  let octets_required := VarUintSize value
  if buffer.length < octets_required then .ok (0, buffer) else do
    let buffer ← SerializeLoop_u64 octets_required octets_required buffer value
    .ok (octets_required, buffer)

/-- The `for (i = octets_required; i > 0; i--)` loop of the signed
`Serialize`, entered with loop variable `i`. -/
def SerializeLoop_i64 (octets_required : Nat) :
    Nat → List Nat → Int → Except Fault (List Nat)
  | 0, buffer, _ => .ok buffer
  | i + 1, buffer, value => do
    let octet := castU8 (and_i64 value 0x7f)
    let value := sar_i64 value 7
    let octet := if i + 1 ≠ octets_required then toU8 (octet ||| 0x80) else octet
    let buffer ← writeAt buffer (i + 1 - 1) octet
    SerializeLoop_i64 octets_required i buffer value

/-- `Serialize(std::span<std::uint8_t> buffer, std::int64_t value)`: the
returned count and the buffer after the call. -/
def Serialize_i64 (buffer : List Nat) (value : Int) : Except Fault (Nat × List Nat) :=
  let octets_required := VarIntSize value
  if octets_required > buffer.length then .ok (0, buffer) else do
    let buffer ← SerializeLoop_i64 octets_required octets_required buffer value
    .ok (octets_required, buffer)

/-! ## Decoders -/

/-- How a `while` loop of a decoder ends: by a `return` inside the body, or by
its condition becoming false. -/
inductive LoopEnd (α : Type) where
  | returned (result : Nat) (value : α)
  | exited (octet total_octets : Nat) (value : α)
  deriving DecidableEq, Repr

/-- The `while (octet & 0x80)` loop of the unsigned `Deserialize`. -/
def DeserializeLoop_u64 (buffer : List Nat) :
    Nat → Nat → Nat → Nat → Except Fault (LoopEnd Nat)
  | fuel, octet, total_octets, value =>
    if octet &&& 0x80 = 0 then .ok (.exited octet total_octets value) else
    match fuel with
    | 0 => .error .outOfFuel
    | fuel + 1 =>
      let total_octets := total_octets + 1
      if total_octets = 11 then .ok (.returned 0 value) else
      if total_octets > buffer.length then .ok (.returned 0 value) else do
        let octet ← readAt buffer (total_octets - 1)
        let value := toU64 (value <<< 7) ||| (octet &&& 0x7f)
        DeserializeLoop_u64 buffer fuel octet total_octets value

/-- `Deserialize(const std::span<std::uint8_t> buffer, std::uint64_t &value)`:
the returned count and the content of `value` after the call. -/
def Deserialize_u64 (buffer : List Nat) : Except Fault (Nat × Nat) := do
  let octet := 0x80
  let total_octets := 0
  let value := 0
  match ← DeserializeLoop_u64 buffer 11 octet total_octets value with
  | .returned result value => .ok (result, value)
  | .exited _ total_octets value =>
    if total_octets = 10 then do
      let first ← readAt buffer 0
      if first ≠ 0x81 then .ok (0, value) else .ok (total_octets, value)
    else .ok (total_octets, value)

/-- The `while (octet & 0x80)` loop of the signed `Deserialize`. -/
def DeserializeLoop_i64 (buffer : List Nat) :
    Nat → Nat → Nat → Int → Except Fault (LoopEnd Int)
  | fuel, octet, total_octets, value =>
    if octet &&& 0x80 = 0 then .ok (.exited octet total_octets value) else
    match fuel with
    | 0 => .error .outOfFuel
    | fuel + 1 =>
      let total_octets := total_octets + 1
      if total_octets = 11 then .ok (.returned 0 value) else
      if total_octets > buffer.length then .ok (.returned 0 value) else do
        let octet ← readAt buffer (total_octets - 1)
        let value := or_i64 (shl_i64 value 7) ((octet &&& 0x7f : Nat) : Int)
        DeserializeLoop_i64 buffer fuel octet total_octets value

/-- `Deserialize(const std::span<std::uint8_t> buffer, std::int64_t &value)`:
the returned count and the content of `value` after the call. -/
def Deserialize_i64 (buffer : List Nat) (value : Int) : Except Fault (Nat × Int) := do
  let octet := 0x80
  let total_octets := 0
  if buffer.isEmpty then .ok (0, value) else do
    let first ← readAt buffer 0
    let value : Int := if first &&& 0x40 ≠ 0 then -1 else 0
    match ← DeserializeLoop_i64 buffer 11 octet total_octets value with
    | .returned result value => .ok (result, value)
    | .exited _ total_octets value =>
      if total_octets = 10 then do
        let first ← readAt buffer 0
        if first ≠ 0x80 then do
          let first ← readAt buffer 0
          if first ≠ 0xff then .ok (0, value) else .ok (total_octets, value)
        else .ok (total_octets, value)
      else .ok (total_octets, value)

/-! ## Specification vocabulary -/

/-- Invariant of `FindMSb`: `v` is the original value `v0` shifted right by
`p`, it is below `2 ^ bound`, and it is non-zero when `v0` is. -/
def MSbInv (v0 bound : Nat) (pv : Nat × Nat) : Prop :=
  pv.2 = v0 / 2 ^ pv.1 ∧ pv.2 < 2 ^ bound ∧ (v0 ≠ 0 → pv.2 ≠ 0)

/-- The octet the encoders store at index `j` of an `n`-octet encoding, given
the seven payload bits `d`: the continuation bit is added except on the last
octet. -/
def framed (n j d : Nat) : Nat := if j + 1 ≠ n then d + 128 else d

/-- An octet with a clear continuation bit ends an encoding. -/
def isLast (octet : Nat) : Bool := decide (octet &&& 0x80 = 0)

/-- The accumulation of the unsigned decoder over a run of octets. -/
def accum_u64 (value : Nat) (octets : List Nat) : Nat :=
  octets.foldl (fun value octet => toU64 (value <<< 7) ||| (octet &&& 0x7f)) value

/-- What the while loop of a decoder yields, entered with `t` octets already
consumed, the previous octet having its continuation bit set, `rest` being the
octets from index `t` on and `acc` the accumulation over a run of octets. -/
def loopSpec {α : Type} (acc : List Nat → α) (rest : List Nat) (t : Nat) : LoopEnd α :=
  if rest.findIdx isLast < rest.length ∧ t + rest.findIdx isLast ≤ 9 then
    .exited (rest.getD (rest.findIdx isLast) 0) (t + rest.findIdx isLast + 1)
      (acc (rest.take (rest.findIdx isLast + 1)))
  else .returned 0 (acc (rest.take (10 - t)))

/-- The accumulation of the signed decoder over a run of octets. -/
def accum_i64 (value : Int) (octets : List Nat) : Int :=
  octets.foldl (fun value octet => or_i64 (shl_i64 value 7) ((octet &&& 0x7f : Nat) : Int)) value

/-- The unsigned decoder accepts a buffer: a terminating octet exists among the
first ten octets, and if it is the tenth the first octet is `0x81`. -/
def accepts_u64 (b : List Nat) : Prop :=
  b.findIdx isLast < b.length ∧ b.findIdx isLast ≤ 9 ∧
    (b.findIdx isLast < 9 ∨ b[0]? = some 0x81)

/-- The signed decoder accepts a buffer: a terminating octet exists among the
first ten octets, and if it is the tenth the first octet is `0x80` or `0xff`. -/
def accepts_i64 (b : List Nat) : Prop :=
  b.findIdx isLast < b.length ∧ b.findIdx isLast ≤ 9 ∧
    (b.findIdx isLast < 9 ∨ b[0]? = some 0x80 ∨ b[0]? = some 0xff)

/-- The initial accumulator of the signed decoder: all ones when bit 6 of the
first octet is set, zero otherwise. -/
def signInit (b : List Nat) : Int := if b.getD 0 0 &&& 0x40 ≠ 0 then -1 else 0

/-- The exact (unbounded) value accumulated over a run of octets, seven payload
bits per octet, most significant group first. -/
def accumNat (value : Nat) (octets : List Nat) : Nat :=
  octets.foldl (fun value octet => value * 128 + octet % 128) value

/-- The exact (unbounded) signed value accumulated over a run of octets. -/
def accumInt (value : Int) (octets : List Nat) : Int :=
  octets.foldl (fun value octet => value * 128 + ((octet % 128 : Nat) : Int)) value

/-- Two's complement wrap-around of an integer to `std::int64_t`. -/
def wrapI64 (z : Int) : Int := castI64 (castU64 z)

/-- The unsigned value `FindMSb(std::int64_t)` searches: the value itself when
it is non-negative, its complement otherwise. -/
def magnitude (v : Int) : Nat := if v ≥ 0 then v.toNat else (-v - 1).toNat

/-- Bit `p` is the highest set bit of `v`; by convention `p = 0` when `v` has no
set bit. -/
def highestSetBit (v p : Nat) : Prop :=
  (v = 0 ∧ p = 0) ∨ (v.testBit p = true ∧ ∀ i, p < i → v.testBit i = false)

/-- The payload sum of a run of `k` octets: the seven low bits of octet `i`
weighted by `2 ^ (7 * (k - 1 - i))`. -/
def payloadSum (b : List Nat) (k : Nat) : Nat :=
  ∑ i in Finset.range k, (b.getD i 0 &&& 0x7f) * 2 ^ (7 * (k - 1 - i))

/-! ## Supporting lemmas -/

theorem and_0x7f (x : Nat) : x &&& 0x7f = x % 128 :=
  Nat.and_pow_two_sub_one_eq_mod x 7

theorem and_0x80 (x : Nat) : x &&& 0x80 = (x / 128 % 2) * 128 := by
  have h := Nat.and_two_pow x 7
  rw [Nat.toNat_testBit] at h
  exact h

theorem and_0x40 (x : Nat) : x &&& 0x40 = (x / 64 % 2) * 64 := by
  have h := Nat.and_two_pow x 6
  rw [Nat.toNat_testBit] at h
  exact h

theorem or_0x80 (a : Nat) (h : a < 128) : a ||| 0x80 = a + 128 := by
  have := Nat.mul_add_lt_is_or (show a < 2 ^ 7 from h) 1
  simp only [Nat.mul_one] at this
  rw [Nat.lor_comm, show (0x80 : Nat) = 2 ^ 7 from rfl, ← this]
  omega

theorem shl_or (v d : Nat) (h : d < 128) : (v * 128) ||| d = v * 128 + d := by
  have := Nat.mul_add_lt_is_or (show d < 2 ^ 7 from h) v
  rw [show (2:Nat)^7 = 128 from rfl, Nat.mul_comm] at this
  exact this.symm

theorem decStep_u64 (v o : Nat) :
    toU64 (v <<< 7) ||| (o &&& 0x7f) = (v * 128 + o % 128) % 2 ^ 64 := by
  rw [and_0x7f, Nat.shiftLeft_eq, toU64]
  have h : v * 2 ^ 7 % 2 ^ 64 = (v % 2 ^ 57) * 128 := by omega
  rw [h, shl_or _ _ (Nat.mod_lt _ (by norm_num))]
  omega

theorem castU64_castI64 (n : Nat) : castU64 (castI64 n) = toU64 n := by
  unfold castU64 castI64 toU64
  split <;> omega

theorem castI64_castU64 (z : Int) (h1 : -2 ^ 63 ≤ z) (h2 : z < 2 ^ 63) :
    castI64 (castU64 z) = z := by
  unfold castU64 castI64 toU64
  split <;> omega

theorem FindMSbStep_eq (s : Nat) (pv : Nat × Nat) (hs : s < 64) :
    FindMSbStep s pv = if 2 ^ s ≤ pv.2 then (pv.1 + s, pv.2 / 2 ^ s) else pv := by
  unfold FindMSbStep toU64
  rw [Nat.shiftLeft_eq, Nat.one_mul, Nat.shiftRight_eq_div_pow,
    Nat.mod_eq_of_lt (Nat.pow_lt_pow_right (by norm_num) hs)]

theorem FindMSbStep_fst_le (s : Nat) (pv : Nat × Nat) :
    (FindMSbStep s pv).1 ≤ pv.1 + s := by
  unfold FindMSbStep
  split <;> simp

theorem FindMSbStep_inv (v0 s : Nat) (pv : Nat × Nat) (hs : s < 64)
    (h : MSbInv v0 (s + s) pv) : MSbInv v0 s (FindMSbStep s pv) := by
  obtain ⟨h1, h2, h3⟩ := h
  rw [FindMSbStep_eq s pv hs]
  have hpos : 0 < 2 ^ s := Nat.pow_pos (by norm_num)
  split
  · rename_i hle
    refine ⟨?_, ?_, ?_⟩
    · show pv.2 / 2 ^ s = v0 / 2 ^ (pv.1 + s)
      rw [h1, Nat.div_div_eq_div_mul, ← Nat.pow_add]
    · show pv.2 / 2 ^ s < 2 ^ s
      rw [Nat.div_lt_iff_lt_mul hpos, ← Nat.pow_add]
      exact h2
    · intro _
      show pv.2 / 2 ^ s ≠ 0
      exact Nat.ne_of_gt (Nat.div_pos hle hpos)
  · rename_i hlt
    exact ⟨h1, Nat.lt_of_not_le hlt, h3⟩

theorem FindMSb_u64_inv (v : Nat) (hv : v < 2 ^ 64) :
    v / 2 ^ FindMSb_u64 v < 2 ∧ (v ≠ 0 → v / 2 ^ FindMSb_u64 v ≠ 0) := by
  have h0 : MSbInv v (32 + 32) (0, v) := ⟨by simp, hv, fun h => h⟩
  have h1 := FindMSbStep_inv v 32 _ (by norm_num) h0
  have h2 := FindMSbStep_inv v 16 _ (by norm_num) h1
  have h3 := FindMSbStep_inv v 8 _ (by norm_num) h2
  have h4 := FindMSbStep_inv v 4 _ (by norm_num) h3
  have h5 := FindMSbStep_inv v 2 _ (by norm_num) h4
  have h6 := FindMSbStep_inv v 1 _ (by norm_num) h5
  obtain ⟨e, b, n⟩ := h6
  unfold FindMSb_u64
  rw [← e]
  exact ⟨b, n⟩

theorem FindMSb_u64_le (v : Nat) : FindMSb_u64 v ≤ 63 := by
  unfold FindMSb_u64
  have h1 := FindMSbStep_fst_le 32 (0, v)
  have h2 := FindMSbStep_fst_le 16 (FindMSbStep 32 (0, v))
  have h3 := FindMSbStep_fst_le 8 (FindMSbStep 16 (FindMSbStep 32 (0, v)))
  have h4 := FindMSbStep_fst_le 4 (FindMSbStep 8 (FindMSbStep 16 (FindMSbStep 32 (0, v))))
  have h5 := FindMSbStep_fst_le 2 (FindMSbStep 4 (FindMSbStep 8 (FindMSbStep 16 (FindMSbStep 32 (0, v)))))
  have h6 := FindMSbStep_fst_le 1
    (FindMSbStep 2 (FindMSbStep 4 (FindMSbStep 8 (FindMSbStep 16 (FindMSbStep 32 (0, v))))))
  simp only at h1
  omega

theorem FindMSb_u64_upper (v : Nat) (hv : v < 2 ^ 64) : v < 2 ^ (FindMSb_u64 v + 1) := by
  have h := (FindMSb_u64_inv v hv).1
  rw [Nat.div_lt_iff_lt_mul (Nat.pow_pos (by norm_num))] at h
  rw [Nat.pow_succ, Nat.mul_comm]
  exact h

theorem FindMSb_u64_lower (v : Nat) (hv : v < 2 ^ 64) (h0 : v ≠ 0) : 2 ^ FindMSb_u64 v ≤ v := by
  have h := (FindMSb_u64_inv v hv).2 h0
  by_contra hc
  exact h (Nat.div_eq_of_lt (Nat.lt_of_not_le hc))

theorem FindMSb_u64_zero : FindMSb_u64 0 = 0 := by decide

/-- The position found by `FindMSb` is below `m` as soon as the value is below
`2 ^ m` (for `m ≥ 1`). -/
theorem FindMSb_u64_lt (v m : Nat) (hv : v < 2 ^ 64) (hm : 0 < m) (h : v < 2 ^ m) :
    FindMSb_u64 v < m := by
  by_cases h0 : v = 0
  · subst h0; rw [FindMSb_u64_zero]; exact hm
  · have hl := FindMSb_u64_lower v hv h0
    by_contra hc
    have : 2 ^ m ≤ 2 ^ FindMSb_u64 v := Nat.pow_le_pow_right (by norm_num) (Nat.le_of_not_lt hc)
    omega

theorem octet_u64 (n i value : Nat) :
    (if i + 1 ≠ n then toU8 (toU8 (value &&& 0x7f) ||| 0x80) else toU8 (value &&& 0x7f))
      = framed n i (value % 128) := by
  have h : toU8 (value &&& 0x7f) = value % 128 := by
    rw [and_0x7f]; unfold toU8; omega
  rw [h, or_0x80 _ (Nat.mod_lt _ (by norm_num))]
  unfold framed toU8
  split <;> omega

theorem and_i64_0x7f (value : Int) : castU8 (and_i64 value 0x7f) = (value % 128).toNat := by
  unfold and_i64
  have h : castU64 0x7f = 0x7f := by decide
  rw [h, and_0x7f]
  unfold castU8 castI64 toU64 castU64
  split <;> omega

theorem octet_i64 (n i : Nat) (value : Int) :
    (if i + 1 ≠ n then toU8 (castU8 (and_i64 value 0x7f) ||| 0x80)
      else castU8 (and_i64 value 0x7f)) = framed n i (value % 128).toNat := by
  rw [and_i64_0x7f]
  have hlt : (value % 128).toNat < 128 := by omega
  rw [or_0x80 _ hlt]
  unfold framed toU8
  split <;> omega

theorem sar_i64_7 (value : Int) : sar_i64 value 7 = value / 128 := by
  unfold sar_i64
  rw [Int.shiftRight_eq_div_pow]
  norm_num

theorem SerializeLoop_u64_spec (n : Nat) : ∀ (i : Nat) (buffer : List Nat) (value : Nat),
    i ≤ buffer.length →
    ∃ out, SerializeLoop_u64 n i buffer value = .ok out ∧ out.length = buffer.length ∧
      ∀ j, out[j]? = if j < i then some (framed n j (value / 128 ^ (i - 1 - j) % 128))
        else buffer[j]? := by
  intro i
  induction i with
  | zero =>
    intro buffer value _
    exact ⟨buffer, rfl, rfl, fun j => by simp⟩
  | succ i ih =>
    intro buffer value hi
    have hlt : i < buffer.length := hi
    obtain ⟨out, h1, h2, h3⟩ := ih (buffer.set i (framed n i (value % 128))) (value >>> 7)
      (by rw [List.length_set]; omega)
    refine ⟨out, ?_, ?_, ?_⟩
    · rw [SerializeLoop_u64, octet_u64]
      simp only [Nat.add_sub_cancel, writeAt, hlt, if_true]
      exact h1
    · rw [h2, List.length_set]
    · intro j
      rw [h3 j]
      rcases Nat.lt_trichotomy j i with hj | hj | hj
      · have e : i + 1 - 1 - j = (i - 1 - j) + 1 := by omega
        have hs : value >>> 7 = value / 128 := Nat.shiftRight_eq_div_pow value 7
        rw [if_pos hj, if_pos (by omega), e, hs, Nat.div_div_eq_div_mul, Nat.pow_succ']
      · subst hj
        rw [if_neg (by omega), if_pos (by omega), List.getElem?_set_self hlt]
        simp
      · rw [if_neg (by omega), if_neg (by omega), List.getElem?_set_ne (by omega)]

theorem int_div_div (a c : Int) (hc : 0 < c) : a / 128 / c = a / (128 * c) := by
  have h1 := Int.emod_add_ediv a 128
  have h2 := Int.emod_add_ediv (a / 128) c
  have h3 := Int.emod_nonneg a (show (128 : Int) ≠ 0 by norm_num)
  have h4 := Int.emod_lt_of_pos a (show (0 : Int) < 128 by norm_num)
  have h5 := Int.emod_nonneg (a / 128) (ne_of_gt hc)
  have h6 := Int.emod_lt_of_pos (a / 128) hc
  have key := (Int.ediv_emod_unique (a := a) (b := 128 * c) (r := a % 128 + 128 * (a / 128 % c))
    (q := a / 128 / c) (by linarith)).mpr ⟨by linarith, by linarith, by linarith⟩
  exact key.1.symm

theorem SerializeLoop_i64_spec (n : Nat) : ∀ (i : Nat) (buffer : List Nat) (value : Int),
    i ≤ buffer.length →
    ∃ out, SerializeLoop_i64 n i buffer value = .ok out ∧ out.length = buffer.length ∧
      ∀ j, out[j]? = if j < i then some (framed n j (value / 128 ^ (i - 1 - j) % 128).toNat)
        else buffer[j]? := by
  intro i
  induction i with
  | zero =>
    intro buffer value _
    exact ⟨buffer, rfl, rfl, fun j => by simp⟩
  | succ i ih =>
    intro buffer value hi
    have hlt : i < buffer.length := hi
    obtain ⟨out, h1, h2, h3⟩ := ih (buffer.set i (framed n i (value % 128).toNat)) (value / 128)
      (by rw [List.length_set]; omega)
    refine ⟨out, ?_, ?_, ?_⟩
    · rw [SerializeLoop_i64, octet_i64, sar_i64_7]
      simp only [Nat.add_sub_cancel, writeAt, hlt, if_true]
      exact h1
    · rw [h2, List.length_set]
    · intro j
      rw [h3 j]
      rcases Nat.lt_trichotomy j i with hj | hj | hj
      · have e : i + 1 - 1 - j = (i - 1 - j) + 1 := by omega
        rw [if_pos hj, if_pos (by omega), e, int_div_div _ _ (by positivity), pow_succ']
      · subst hj
        rw [if_neg (by omega), if_pos (by omega), List.getElem?_set_self hlt]
        simp
      · rw [if_neg (by omega), if_neg (by omega), List.getElem?_set_ne (by omega)]

theorem Serialize_u64_short (buffer : List Nat) (value : Nat)
    (h : buffer.length < VarUintSize value) : Serialize_u64 buffer value = .ok (0, buffer) := by
  simp only [Serialize_u64, h, if_true]

theorem Serialize_u64_spec (buffer : List Nat) (value : Nat)
    (h : VarUintSize value ≤ buffer.length) :
    ∃ out, Serialize_u64 buffer value = .ok (VarUintSize value, out) ∧
      out.length = buffer.length ∧
      ∀ j, out[j]? = if j < VarUintSize value
        then some (framed (VarUintSize value) j (value / 128 ^ (VarUintSize value - 1 - j) % 128))
        else buffer[j]? := by
  obtain ⟨out, h1, h2, h3⟩ := SerializeLoop_u64_spec (VarUintSize value) (VarUintSize value)
    buffer value h
  refine ⟨out, ?_, h2, h3⟩
  simp only [Serialize_u64, Nat.not_lt.mpr h, if_false, h1]
  rfl

theorem Serialize_i64_short (buffer : List Nat) (value : Int)
    (h : buffer.length < VarIntSize value) : Serialize_i64 buffer value = .ok (0, buffer) := by
  simp only [Serialize_i64, gt_iff_lt, h, if_true]

theorem Serialize_i64_spec (buffer : List Nat) (value : Int)
    (h : VarIntSize value ≤ buffer.length) :
    ∃ out, Serialize_i64 buffer value = .ok (VarIntSize value, out) ∧
      out.length = buffer.length ∧
      ∀ j, out[j]? = if j < VarIntSize value
        then some (framed (VarIntSize value) j
          (value / 128 ^ (VarIntSize value - 1 - j) % 128).toNat)
        else buffer[j]? := by
  obtain ⟨out, h1, h2, h3⟩ := SerializeLoop_i64_spec (VarIntSize value) (VarIntSize value)
    buffer value h
  refine ⟨out, ?_, h2, h3⟩
  simp only [Serialize_i64, gt_iff_lt, Nat.not_lt.mpr h, if_false, h1]
  rfl

theorem VarUintSize_pos (value : Nat) : 0 < VarUintSize value := Nat.succ_pos _

theorem VarUintSize_le (value : Nat) : VarUintSize value ≤ 10 := by
  have := FindMSb_u64_le value
  unfold VarUintSize
  omega

theorem VarIntSize_pos (value : Int) : 0 < VarIntSize value := Nat.succ_pos _

theorem VarIntSize_le (value : Int) : VarIntSize value ≤ 10 := by
  have h : FindMSb_i64 value ≤ 63 := by
    unfold FindMSb_i64
    split <;> exact FindMSb_u64_le _
  unfold VarIntSize
  omega

theorem loopSpec_nil {α : Type} (acc : List Nat → α) (t : Nat) :
    loopSpec acc [] t = .returned 0 (acc []) := by
  simp [loopSpec]

theorem loopSpec_full {α : Type} (acc : List Nat → α) (rest : List Nat) :
    loopSpec acc rest 10 = .returned 0 (acc []) := by
  unfold loopSpec
  rw [if_neg (by omega)]
  simp

theorem loopSpec_cons_last {α : Type} (acc : List Nat → α) (x : Nat) (rest : List Nat) (t : Nat)
    (hx : x &&& 0x80 = 0) (ht : t ≤ 9) :
    loopSpec acc (x :: rest) t = .exited x (t + 1) (acc [x]) := by
  have h : (x :: rest).findIdx isLast = 0 := by
    rw [List.findIdx_cons]; simp [isLast, hx]
  simp [loopSpec, h, ht]

theorem loopSpec_cons_more {α : Type} (acc : List Nat → α) (x : Nat) (rest : List Nat) (t : Nat)
    (hx : x &&& 0x80 ≠ 0) (ht : t ≤ 9) :
    loopSpec acc (x :: rest) t = loopSpec (fun l => acc (x :: l)) rest (t + 1) := by
  have h : (x :: rest).findIdx isLast = rest.findIdx isLast + 1 := by
    rw [List.findIdx_cons]; simp [isLast, hx]
  have e : 10 - t = (10 - (t + 1)) + 1 := by omega
  unfold loopSpec
  rw [h, e]
  simp only [List.length_cons, List.take_succ_cons, Nat.add_lt_add_iff_right, List.getD_cons_succ]
  have e2 : t + (rest.findIdx isLast + 1) = t + 1 + rest.findIdx isLast := by omega
  rw [e2]

theorem DeserializeLoop_u64_exit (b : List Nat) (fuel octet t value : Nat)
    (h : octet &&& 0x80 = 0) :
    DeserializeLoop_u64 b fuel octet t value = .ok (.exited octet t value) := by
  cases fuel <;> simp [DeserializeLoop_u64, h]

theorem DeserializeLoop_u64_spec (b : List Nat) : ∀ (fuel octet t value : Nat),
    octet &&& 0x80 ≠ 0 → t ≤ 10 → 11 ≤ t + fuel →
    DeserializeLoop_u64 b fuel octet t value = .ok (loopSpec (accum_u64 value) (b.drop t) t) := by
  intro fuel
  induction fuel with
  | zero => intro _ t _ _ ht hf; omega
  | succ fuel ih =>
    intro octet t value ho ht hf
    rw [DeserializeLoop_u64]
    simp only [ho, if_false]
    by_cases h10 : t + 1 = 11
    · have : t = 10 := by omega
      subst this
      simp [loopSpec_full, accum_u64]
    · rw [if_neg h10]
      by_cases hlen : t + 1 > b.length
      · rw [if_pos hlen, List.drop_eq_nil_of_le (by omega), loopSpec_nil]
        simp [accum_u64]
      · rw [if_neg hlen]
        have hlt : t < b.length := by omega
        have hd : b.drop t = b[t] :: b.drop (t + 1) := List.drop_eq_getElem_cons hlt
        have hr : readAt b (t + 1 - 1) = .ok b[t] := by
          simp [readAt, List.getElem?_eq_getElem hlt]
        rw [hr, hd]
        show DeserializeLoop_u64 b fuel b[t] (t + 1) (toU64 (value <<< 7) ||| (b[t] &&& 0x7f)) = _
        by_cases hx : b[t] &&& 0x80 = 0
        · rw [loopSpec_cons_last _ _ _ _ hx (by omega)]
          rw [DeserializeLoop_u64_exit _ _ _ _ _ hx]
          simp [accum_u64]
        · rw [loopSpec_cons_more _ _ _ _ hx (by omega)]
          rw [ih _ _ _ hx (by omega) (by omega)]
          rfl

theorem DeserializeLoop_i64_exit (b : List Nat) (fuel octet t : Nat) (value : Int)
    (h : octet &&& 0x80 = 0) :
    DeserializeLoop_i64 b fuel octet t value = .ok (.exited octet t value) := by
  cases fuel <;> simp [DeserializeLoop_i64, h]

theorem DeserializeLoop_i64_spec (b : List Nat) : ∀ (fuel octet t : Nat) (value : Int),
    octet &&& 0x80 ≠ 0 → t ≤ 10 → 11 ≤ t + fuel →
    DeserializeLoop_i64 b fuel octet t value = .ok (loopSpec (accum_i64 value) (b.drop t) t) := by
  intro fuel
  induction fuel with
  | zero => intro _ t _ _ ht hf; omega
  | succ fuel ih =>
    intro octet t value ho ht hf
    rw [DeserializeLoop_i64]
    simp only [ho, if_false]
    by_cases h10 : t + 1 = 11
    · have : t = 10 := by omega
      subst this
      simp [loopSpec_full, accum_i64]
    · rw [if_neg h10]
      by_cases hlen : t + 1 > b.length
      · rw [if_pos hlen, List.drop_eq_nil_of_le (by omega), loopSpec_nil]
        simp [accum_i64]
      · rw [if_neg hlen]
        have hlt : t < b.length := by omega
        have hd : b.drop t = b[t] :: b.drop (t + 1) := List.drop_eq_getElem_cons hlt
        have hr : readAt b (t + 1 - 1) = .ok b[t] := by
          simp [readAt, List.getElem?_eq_getElem hlt]
        rw [hr, hd]
        show DeserializeLoop_i64 b fuel b[t] (t + 1)
          (or_i64 (shl_i64 value 7) ((b[t] &&& 0x7f : Nat) : Int)) = _
        by_cases hx : b[t] &&& 0x80 = 0
        · rw [loopSpec_cons_last _ _ _ _ hx (by omega)]
          rw [DeserializeLoop_i64_exit _ _ _ _ _ hx]
          simp [accum_i64]
        · rw [loopSpec_cons_more _ _ _ _ hx (by omega)]
          rw [ih _ _ _ hx (by omega) (by omega)]
          rfl

theorem loopSpec_exit {α : Type} (acc : List Nat → α) (rest : List Nat) (t : Nat)
    (h1 : rest.findIdx isLast < rest.length) (h2 : t + rest.findIdx isLast ≤ 9) :
    loopSpec acc rest t = .exited (rest.getD (rest.findIdx isLast) 0)
      (t + rest.findIdx isLast + 1) (acc (rest.take (rest.findIdx isLast + 1))) :=
  if_pos ⟨h1, h2⟩

theorem loopSpec_ret {α : Type} (acc : List Nat → α) (rest : List Nat) (t : Nat)
    (h : ¬ (rest.findIdx isLast < rest.length ∧ t + rest.findIdx isLast ≤ 9)) :
    loopSpec acc rest t = .returned 0 (acc (rest.take (10 - t))) :=
  if_neg h

theorem readAt_zero (b : List Nat) (x : Nat) (h : b[0]? = some x) : readAt b 0 = .ok x := by
  unfold readAt; rw [h]

theorem readAt_zero_ne (b : List Nat) (h : b ≠ []) : ∃ x, b[0]? = some x ∧ readAt b 0 = .ok x := by
  obtain ⟨x, xs, rfl⟩ := List.exists_cons_of_ne_nil h
  exact ⟨x, by simp, by simp [readAt]⟩

theorem Deserialize_u64_accept (b : List Nat) (h : accepts_u64 b) :
    Deserialize_u64 b =
      .ok (b.findIdx isLast + 1, accum_u64 0 (b.take (b.findIdx isLast + 1))) := by
  obtain ⟨h1, h2, h3⟩ := h
  unfold Deserialize_u64
  dsimp only
  rw [DeserializeLoop_u64_spec b 11 0x80 0 0 (by decide) (by omega) (by omega), List.drop_zero,
    loopSpec_exit _ _ _ h1 (by omega)]
  simp only [bind, Except.bind, Nat.zero_add]
  rcases h3 with h9 | h81
  · rw [if_neg (by omega)]
  · rw [readAt_zero b _ h81]
    simp

theorem Deserialize_u64_reject (b : List Nat) (h : ¬ accepts_u64 b) :
    Deserialize_u64 b = .ok (0, accum_u64 0 (b.take 10)) := by
  unfold Deserialize_u64
  dsimp only
  rw [DeserializeLoop_u64_spec b 11 0x80 0 0 (by decide) (by omega) (by omega), List.drop_zero]
  by_cases h1 : b.findIdx isLast < b.length ∧ 0 + b.findIdx isLast ≤ 9
  · rw [loopSpec_exit _ _ _ h1.1 h1.2]
    have hne : b ≠ [] := by
      intro hb; subst hb; simp at h1
    obtain ⟨x, hx0, hx⟩ := readAt_zero_ne b hne
    have h9 : b.findIdx isLast = 9 := by
      by_contra hc
      exact h ⟨h1.1, by omega, Or.inl (by omega)⟩
    have hx81 : x ≠ 0x81 := by
      intro hc; subst hc
      exact h ⟨h1.1, by omega, Or.inr hx0⟩
    simp only [bind, Except.bind, Nat.zero_add, h9, hx]
    simp [hx81]
  · rw [loopSpec_ret _ _ _ h1]
    rfl

theorem Deserialize_i64_accept (b : List Nat) (v0 : Int) (h : accepts_i64 b) :
    Deserialize_i64 b v0 =
      .ok (b.findIdx isLast + 1, accum_i64 (signInit b) (b.take (b.findIdx isLast + 1))) := by
  obtain ⟨h1, h2, h3⟩ := h
  have hne : b ≠ [] := by
    intro hb; subst hb; simp at h1
  obtain ⟨x, hx0, hx⟩ := readAt_zero_ne b hne
  have hemp : b.isEmpty = false := by
    cases b with
    | nil => exact absurd rfl hne
    | cons _ _ => rfl
  have hs : (if x &&& 0x40 ≠ 0 then (-1 : Int) else 0) = signInit b := by
    unfold signInit
    rw [List.getD_eq_getElem?_getD, hx0]
    rfl
  unfold Deserialize_i64
  dsimp only
  simp only [hemp, Bool.false_eq_true, if_false, bind, Except.bind, hx, hs]
  rw [DeserializeLoop_i64_spec b 11 0x80 0 _ (by decide) (by omega) (by omega), List.drop_zero,
    loopSpec_exit _ _ _ h1 (by omega)]
  simp only [Nat.zero_add]
  rcases h3 with h9 | h80 | hff
  · rw [if_neg (by omega)]
  · have : x = 0x80 := by rw [hx0] at h80; exact Option.some.inj h80
    subst this
    simp
  · have : x = 0xff := by rw [hx0] at hff; exact Option.some.inj hff
    subst this
    simp

theorem Deserialize_i64_reject (b : List Nat) (v0 : Int) (h : ¬ accepts_i64 b) :
    ∃ v, Deserialize_i64 b v0 = .ok (0, v) := by
  by_cases hne : b = []
  · subst hne
    exact ⟨v0, rfl⟩
  obtain ⟨x, hx0, hx⟩ := readAt_zero_ne b hne
  have hemp : b.isEmpty = false := by
    cases b with
    | nil => exact absurd rfl hne
    | cons _ _ => rfl
  unfold Deserialize_i64
  dsimp only
  simp only [hemp, Bool.false_eq_true, if_false, bind, Except.bind, hx]
  rw [DeserializeLoop_i64_spec b 11 0x80 0 _ (by decide) (by omega) (by omega), List.drop_zero]
  by_cases h1 : b.findIdx isLast < b.length ∧ 0 + b.findIdx isLast ≤ 9
  · rw [loopSpec_exit _ _ _ h1.1 h1.2]
    have h9 : b.findIdx isLast = 9 := by
      by_contra hc
      exact h ⟨h1.1, by omega, Or.inl (by omega)⟩
    have hx80 : x ≠ 0x80 := by
      intro hc; subst hc
      exact h ⟨h1.1, by omega, Or.inr (Or.inl hx0)⟩
    have hxff : x ≠ 0xff := by
      intro hc; subst hc
      exact h ⟨h1.1, by omega, Or.inr (Or.inr hx0)⟩
    simp only [Nat.zero_add, h9]
    simp [hx80, hxff]
  · rw [loopSpec_ret _ _ _ h1]
    exact ⟨_, rfl⟩

theorem int_not_eq (v : Int) : ~~~v = -v - 1 := by
  cases v with
  | ofNat n => show Int.negSucc n = -(n : Int) - 1; rw [Int.negSucc_eq]; omega
  | negSucc n => show (n : Int) = -(Int.negSucc n) - 1; rw [Int.negSucc_eq]; omega

theorem accumNat_shift (v : Nat) (os : List Nat) :
    accumNat v os = v * 128 ^ os.length + accumNat 0 os := by
  induction os using List.reverseRecOn with
  | nil => simp [accumNat]
  | append_singleton os o ih =>
    unfold accumNat at ih ⊢
    rw [List.foldl_append, List.foldl_append, ih]
    simp only [List.foldl_cons, List.foldl_nil, List.length_append, List.length_singleton]
    ring

theorem accumNat_lt (os : List Nat) : accumNat 0 os < 128 ^ os.length := by
  induction os using List.reverseRecOn with
  | nil => simp [accumNat]
  | append_singleton os o ih =>
    unfold accumNat at ih ⊢
    rw [List.foldl_append]
    simp only [List.foldl_cons, List.foldl_nil, List.length_append, List.length_singleton]
    rw [Nat.pow_succ]
    have := Nat.mod_lt o (show 0 < 128 by norm_num)
    omega

theorem accumInt_shift (v : Int) (os : List Nat) :
    accumInt v os = v * 128 ^ os.length + (accumNat 0 os : Int) := by
  induction os using List.reverseRecOn with
  | nil => simp [accumInt, accumNat]
  | append_singleton os o ih =>
    unfold accumInt accumNat at ih ⊢
    rw [List.foldl_append, List.foldl_append, ih]
    simp only [List.foldl_cons, List.foldl_nil, List.length_append, List.length_singleton]
    push_cast
    ring

theorem accum_u64_eq (os : List Nat) : ∀ v, v < 2 ^ 64 →
    accum_u64 v os = accumNat v os % 2 ^ 64 := by
  induction os with
  | nil =>
    intro v hv
    show v = v % 2 ^ 64
    omega
  | cons o os ih =>
    intro v _
    have hstep : accum_u64 v (o :: os) = accum_u64 ((v * 128 + o % 128) % 2 ^ 64) os := by
      unfold accum_u64
      rw [List.foldl_cons, decStep_u64]
    have hnat : accumNat v (o :: os) = accumNat (v * 128 + o % 128) os := rfl
    rw [hstep, ih _ (Nat.mod_lt _ (by norm_num)), hnat, accumNat_shift,
      accumNat_shift (v * 128 + o % 128)]
    rw [Nat.add_mod, Nat.mul_mod, Nat.mod_mod, ← Nat.mul_mod, ← Nat.add_mod]

theorem wrapI64_emod (z : Int) : wrapI64 z % 2 ^ 64 = z % 2 ^ 64 := by
  unfold wrapI64 castI64 castU64 toU64
  split <;> omega

theorem wrapI64_congr (a b : Int) (h : a % 2 ^ 64 = b % 2 ^ 64) : wrapI64 a = wrapI64 b := by
  unfold wrapI64 castU64
  have : a % ((2 ^ 64 : Nat) : Int) = b % ((2 ^ 64 : Nat) : Int) := by
    norm_num; exact h
  rw [this]

theorem wrapI64_of_range (z : Int) (h1 : -2 ^ 63 ≤ z) (h2 : z < 2 ^ 63) : wrapI64 z = z :=
  castI64_castU64 z h1 h2

theorem wrapI64_range (z : Int) : -2 ^ 63 ≤ wrapI64 z ∧ wrapI64 z < 2 ^ 63 := by
  unfold wrapI64 castI64 castU64 toU64
  split <;> omega

theorem decStep_i64 (v : Int) (o : Nat) :
    or_i64 (shl_i64 v 7) ((o &&& 0x7f : Nat) : Int) = wrapI64 (v * 128 + ((o % 128 : Nat) : Int)) := by
  unfold or_i64 shl_i64
  rw [castU64_castI64, and_0x7f, Nat.shiftLeft_eq]
  have hd : castU64 ((o % 128 : Nat) : Int) = o % 128 := by
    unfold castU64; omega
  rw [hd]
  have h : toU64 (castU64 v * 2 ^ 7) = (castU64 v % 2 ^ 57) * 128 := by
    unfold toU64; omega
  rw [h, shl_or _ _ (Nat.mod_lt _ (by norm_num))]
  unfold wrapI64 castI64 castU64 toU64
  split <;> split <;> omega

theorem accum_i64_eq (os : List Nat) : ∀ v : Int,
    accum_i64 (wrapI64 v) os = wrapI64 (accumInt v os) := by
  induction os with
  | nil => intro v; rfl
  | cons o os ih =>
    intro v
    have hstep : accum_i64 (wrapI64 v) (o :: os)
        = accum_i64 (wrapI64 (wrapI64 v * 128 + ((o % 128 : Nat) : Int))) os := by
      unfold accum_i64
      rw [List.foldl_cons, decStep_i64]
    have hint : accumInt v (o :: os) = accumInt (v * 128 + ((o % 128 : Nat) : Int)) os := rfl
    rw [hstep, ih, hint]
    apply wrapI64_congr
    rw [accumInt_shift, accumInt_shift (v * 128 + ((o % 128 : Nat) : Int))]
    have e := wrapI64_emod v
    have : (wrapI64 v * 128 + ((o % 128 : Nat) : Int)) ≡ (v * 128 + ((o % 128 : Nat) : Int)) [ZMOD 2 ^ 64] :=
      Int.ModEq.add_right _ (Int.ModEq.mul_right _ e)
    exact Int.ModEq.add_right _ (Int.ModEq.mul_right _ this)

theorem int_div_div_gen (a b c : Int) (hb : 0 < b) (hc : 0 < c) : a / b / c = a / (b * c) := by
  have h1 := Int.emod_add_ediv a b
  have h2 := Int.emod_add_ediv (a / b) c
  have h3 := Int.emod_nonneg a (ne_of_gt hb)
  have h4 := Int.emod_lt_of_pos a hb
  have h5 := Int.emod_nonneg (a / b) (ne_of_gt hc)
  have h6 := Int.emod_lt_of_pos (a / b) hc
  have key := (Int.ediv_emod_unique (a := a) (b := b * c) (r := a % b + b * (a / b % c))
    (q := a / b / c) (by positivity)).mpr
      ⟨by linear_combination h1 + b * h2, by positivity, by nlinarith⟩
  exact key.1.symm

theorem findIdx_isLast_eq (l : List Nat) (i x : Nat) (hx : l[i]? = some x)
    (hlast : x &&& 0x80 = 0) (hprev : ∀ j < i, ∀ y, l[j]? = some y → y &&& 0x80 ≠ 0) :
    l.findIdx isLast = i := by
  obtain ⟨hi, hxi⟩ := List.getElem?_eq_some_iff.mp hx
  rw [List.findIdx_eq hi]
  refine ⟨?_, ?_⟩
  · rw [hxi]; simp [isLast, hlast]
  · intro j hji
    have := hprev j hji _ (List.getElem?_eq_getElem (Nat.lt_trans hji hi))
    simp [isLast, this]

theorem findIdx_isLast_none (l : List Nat) (h : ∀ x ∈ l, x &&& 0x80 ≠ 0) :
    l.findIdx isLast = l.length := by
  apply List.findIdx_eq_length_of_false
  intro x hx
  simp [isLast, h x hx]

theorem framed_last (n j d : Nat) (hd : d < 128) : framed n j d &&& 0x80 = 0 ↔ j + 1 = n := by
  rw [and_0x80]
  unfold framed
  split <;> omega

theorem framed_mod (n j d : Nat) (hd : d < 128) : framed n j d % 128 = d := by
  unfold framed
  split <;> omega

theorem framed_lt (n j d : Nat) (hd : d < 128) : framed n j d < 256 := by
  unfold framed
  split <;> omega

theorem accumNat_digits (l : List Nat) (n v : Nat)
    (h : ∀ j < n, ∃ x, l[j]? = some x ∧ x % 128 = v / 128 ^ (n - 1 - j) % 128) :
    ∀ m ≤ n, accumNat (v / 128 ^ n) (l.take m) = v / 128 ^ (n - m) := by
  intro m
  induction m with
  | zero => intro _; rfl
  | succ m ih =>
    intro hm
    obtain ⟨x, hx, hd⟩ := h m (by omega)
    rw [List.take_succ, hx]
    unfold accumNat at ih ⊢
    rw [List.foldl_append, ih (by omega)]
    simp only [Option.toList_some, List.foldl_cons, List.foldl_nil]
    have e1 : n - m = (n - (m + 1)) + 1 := by omega
    have e2 : n - 1 - m = n - (m + 1) := by omega
    rw [hd, e1, e2, Nat.pow_succ, ← Nat.div_div_eq_div_mul]
    omega

theorem accumInt_digits (l : List Nat) (n : Nat) (v : Int)
    (h : ∀ j < n, ∃ x, l[j]? = some x ∧ ((x % 128 : Nat) : Int) = v / 128 ^ (n - 1 - j) % 128) :
    ∀ m ≤ n, accumInt (v / 128 ^ n) (l.take m) = v / 128 ^ (n - m) := by
  intro m
  induction m with
  | zero => intro _; rfl
  | succ m ih =>
    intro hm
    obtain ⟨x, hx, hd⟩ := h m (by omega)
    rw [List.take_succ, hx]
    unfold accumInt at ih ⊢
    rw [List.foldl_append, ih (by omega)]
    simp only [Option.toList_some, List.foldl_cons, List.foldl_nil]
    have e1 : n - m = (n - (m + 1)) + 1 := by omega
    have e2 : n - 1 - m = n - (m + 1) := by omega
    rw [hd, e1, e2, pow_succ', ← int_div_div _ _ (by positivity)]
    have := Int.ediv_add_emod (v / 128 ^ (n - (m + 1))) 128
    have hc : ∀ a : Int, a / 128 / 128 ^ (n - (m + 1)) = a / 128 ^ (n - (m + 1)) / 128 := by
      intro a
      rw [int_div_div_gen _ _ _ (by norm_num) (by positivity),
        int_div_div_gen _ _ _ (by positivity) (by norm_num), Int.mul_comm]
    rw [hc]
    omega

theorem pow128 (n : Nat) : (128 : Nat) ^ n = 2 ^ (7 * n) := by
  rw [Nat.pow_mul]

theorem half_pow128 (n : Nat) (hn : 0 < n) : 64 * (128 : Nat) ^ (n - 1) = 2 ^ (7 * n - 1) := by
  rw [pow128, show (64 : Nat) = 2 ^ 6 from rfl, ← Nat.pow_add]
  congr 1
  omega

theorem VarUintSize_bound (v : Nat) (hv : v < 2 ^ 64) : v < 128 ^ VarUintSize v := by
  have h := FindMSb_u64_upper v hv
  have hle : 2 ^ (FindMSb_u64 v + 1) ≤ 2 ^ (7 * VarUintSize v) :=
    Nat.pow_le_pow_right (by norm_num) (by unfold VarUintSize; omega)
  rw [pow128]
  omega

theorem VarUintSize_le_of_lt (v k : Nat) (hv : v < 2 ^ 64) (hk : 0 < k) (h : v < 128 ^ k) :
    VarUintSize v ≤ k := by
  rw [pow128] at h
  have := FindMSb_u64_lt v (7 * k) hv (by omega) h
  unfold VarUintSize
  omega

theorem VarUintSize_ten (v : Nat) (hv : v < 2 ^ 64) (h : VarUintSize v = 10) : 2 ^ 63 ≤ v := by
  have h0 : v ≠ 0 := by
    intro hc; subst hc
    revert h; decide
  have hl := FindMSb_u64_lower v hv h0
  have : 2 ^ 63 ≤ 2 ^ FindMSb_u64 v :=
    Nat.pow_le_pow_right (by norm_num) (by unfold VarUintSize at h; omega)
  omega

theorem FindMSb_i64_eq (v : Int) (h1 : -2 ^ 63 ≤ v) (h2 : v < 2 ^ 63) :
    FindMSb_i64 v = FindMSb_u64 (magnitude v) := by
  unfold FindMSb_i64 magnitude
  split
  · congr 1
    unfold castU64
    omega
  · congr 1
    rw [int_not_eq]
    unfold castU64
    omega

theorem magnitude_lt (v : Int) (h1 : -2 ^ 63 ≤ v) (h2 : v < 2 ^ 63) : magnitude v < 2 ^ 63 := by
  unfold magnitude
  split <;> omega

theorem VarIntSize_bound (v : Int) (h1 : -2 ^ 63 ≤ v) (h2 : v < 2 ^ 63) :
    magnitude v < 64 * 128 ^ (VarIntSize v - 1) := by
  have hm := magnitude_lt v h1 h2
  have h := FindMSb_u64_upper (magnitude v) (by omega)
  rw [half_pow128 _ (VarIntSize_pos v)]
  have hle : 2 ^ (FindMSb_u64 (magnitude v) + 1) ≤ 2 ^ (7 * VarIntSize v - 1) :=
    Nat.pow_le_pow_right (by norm_num) (by
      unfold VarIntSize
      rw [FindMSb_i64_eq v h1 h2]
      omega)
  omega

theorem VarIntSize_le_of_lt (v : Int) (k : Nat) (h1 : -2 ^ 63 ≤ v) (h2 : v < 2 ^ 63)
    (hk : 0 < k) (h : magnitude v < 64 * 128 ^ (k - 1)) : VarIntSize v ≤ k := by
  rw [half_pow128 _ hk] at h
  have hm := magnitude_lt v h1 h2
  have := FindMSb_u64_lt (magnitude v) (7 * k - 1) (by omega) (by omega) h
  unfold VarIntSize
  rw [FindMSb_i64_eq v h1 h2]
  omega

theorem VarIntSize_ten (v : Int) (h1 : -2 ^ 63 ≤ v) (h2 : v < 2 ^ 63)
    (h : VarIntSize v = 10) : 2 ^ 62 ≤ magnitude v := by
  have hm := magnitude_lt v h1 h2
  have h0 : magnitude v ≠ 0 := by
    intro hc
    unfold VarIntSize at h
    rw [FindMSb_i64_eq v h1 h2, hc, FindMSb_u64_zero] at h
    omega
  have hl := FindMSb_u64_lower (magnitude v) (by omega) h0
  have : 2 ^ 62 ≤ 2 ^ FindMSb_u64 (magnitude v) :=
    Nat.pow_le_pow_right (by norm_num) (by
      unfold VarIntSize at h
      rw [FindMSb_i64_eq v h1 h2] at h
      omega)
  omega

theorem Serialize_u64_inv (buffer : List Nat) (value n : Nat) (out : List Nat)
    (h : Serialize_u64 buffer value = .ok (n, out)) (hn : n ≠ 0) :
    n = VarUintSize value ∧ n ≤ buffer.length ∧ out.length = buffer.length ∧
      ∀ j, out[j]? = if j < n then some (framed n j (value / 128 ^ (n - 1 - j) % 128))
        else buffer[j]? := by
  by_cases hlen : buffer.length < VarUintSize value
  · rw [Serialize_u64_short buffer value hlen] at h
    injection h with h
    injection h with h1 _
    exact absurd h1.symm hn
  · obtain ⟨out', e, hl, hp⟩ := Serialize_u64_spec buffer value (Nat.le_of_not_lt hlen)
    rw [e] at h
    injection h with h
    injection h with h1 h2
    subst h1 h2
    exact ⟨rfl, Nat.le_of_not_lt hlen, hl, hp⟩

theorem Serialize_i64_inv (buffer : List Nat) (value : Int) (n : Nat) (out : List Nat)
    (h : Serialize_i64 buffer value = .ok (n, out)) (hn : n ≠ 0) :
    n = VarIntSize value ∧ n ≤ buffer.length ∧ out.length = buffer.length ∧
      ∀ j, out[j]? = if j < n then some (framed n j (value / 128 ^ (n - 1 - j) % 128).toNat)
        else buffer[j]? := by
  by_cases hlen : buffer.length < VarIntSize value
  · rw [Serialize_i64_short buffer value hlen] at h
    injection h with h
    injection h with h1 _
    exact absurd h1.symm hn
  · obtain ⟨out', e, hl, hp⟩ := Serialize_i64_spec buffer value (Nat.le_of_not_lt hlen)
    rw [e] at h
    injection h with h
    injection h with h1 h2
    subst h1 h2
    exact ⟨rfl, Nat.le_of_not_lt hlen, hl, hp⟩

theorem take_eq_of_getElem? (out l : List Nat)
    (h : ∀ j < l.length, out[j]? = l[j]?) : out.take l.length = l := by
  apply List.ext_getElem?
  intro j
  by_cases hj : j < l.length
  · rw [List.getElem?_take_of_lt hj, h j hj]
  · rw [List.getElem?_eq_none (by simp; omega), List.getElem?_eq_none (by omega)]

theorem accepts_u64_of_least (b : List Nat) (j x : Nat) (hx : b[j]? = some x)
    (hlast : x &&& 0x80 = 0) (hprev : ∀ i < j, ∀ y, b[i]? = some y → y &&& 0x80 ≠ 0) :
    b.findIdx isLast = j ∧ (accepts_u64 b ↔ j ≤ 9 ∧ (j < 9 ∨ b[0]? = some 0x81)) := by
  have e := findIdx_isLast_eq b j x hx hlast hprev
  have hj : j < b.length := (List.getElem?_eq_some_iff.mp hx).1
  refine ⟨e, ?_⟩
  unfold accepts_u64
  rw [e]
  exact ⟨fun h => ⟨h.2.1, h.2.2⟩, fun h => ⟨hj, h.1, h.2⟩⟩

theorem accepts_i64_of_least (b : List Nat) (j x : Nat) (hx : b[j]? = some x)
    (hlast : x &&& 0x80 = 0) (hprev : ∀ i < j, ∀ y, b[i]? = some y → y &&& 0x80 ≠ 0) :
    b.findIdx isLast = j ∧
      (accepts_i64 b ↔ j ≤ 9 ∧ (j < 9 ∨ b[0]? = some 0x80 ∨ b[0]? = some 0xff)) := by
  have e := findIdx_isLast_eq b j x hx hlast hprev
  have hj : j < b.length := (List.getElem?_eq_some_iff.mp hx).1
  refine ⟨e, ?_⟩
  unfold accepts_i64
  rw [e]
  exact ⟨fun h => ⟨h.2.1, h.2.2⟩, fun h => ⟨hj, h.1, h.2⟩⟩

theorem not_accepts_of_none (b : List Nat) (h : ∀ x ∈ b, x &&& 0x80 ≠ 0) :
    ¬ accepts_u64 b ∧ ¬ accepts_i64 b := by
  have e := findIdx_isLast_none b h
  unfold accepts_u64 accepts_i64
  rw [e]
  exact ⟨fun h => Nat.lt_irrefl _ h.1, fun h => Nat.lt_irrefl _ h.1⟩

/-- A successful unsigned decode: the count is the index of the first
terminating octet plus one, and the value is the accumulation, reduced to 64
bits, of the consumed octets. -/
theorem Deserialize_u64_inv (b : List Nat) (k v : Nat)
    (h : Deserialize_u64 b = .ok (k, v)) (hk : k ≠ 0) :
    accepts_u64 b ∧ k = b.findIdx isLast + 1 ∧ v = accumNat 0 (b.take k) % 2 ^ 64 := by
  by_cases ha : accepts_u64 b
  · rw [Deserialize_u64_accept b ha] at h
    injection h with h
    injection h with h1 h2
    refine ⟨ha, h1.symm, ?_⟩
    rw [← h2, ← h1, accum_u64_eq _ 0 (by norm_num)]
  · rw [Deserialize_u64_reject b ha] at h
    injection h with h
    injection h with h1 _
    exact absurd h1.symm hk

theorem signInit_wrap (b : List Nat) : signInit b = wrapI64 (signInit b) := by
  unfold signInit
  split <;> decide

theorem Deserialize_i64_inv (b : List Nat) (v0 : Int) (k : Nat) (v : Int)
    (h : Deserialize_i64 b v0 = .ok (k, v)) (hk : k ≠ 0) :
    accepts_i64 b ∧ k = b.findIdx isLast + 1 ∧
      v = wrapI64 (accumInt (signInit b) (b.take k)) := by
  by_cases ha : accepts_i64 b
  · rw [Deserialize_i64_accept b v0 ha] at h
    injection h with h
    injection h with h1 h2
    refine ⟨ha, h1.symm, ?_⟩
    rw [← h2, ← h1, signInit_wrap b, accum_i64_eq, ← signInit_wrap b]
  · obtain ⟨w, e⟩ := Deserialize_i64_reject b v0 ha
    rw [e] at h
    injection h with h
    injection h with h1 _
    exact absurd h1.symm hk

theorem bit6_iff (x : Nat) : x &&& 0x40 ≠ 0 ↔ 64 ≤ x % 128 := by
  rw [and_0x40]
  omega

theorem signed_range (d P T : Nat) (hd : d < 128) (hT : T < P) :
    -((64 * P : Nat) : Int) ≤
        (if 64 ≤ d then (-1 : Int) else 0) * ((128 * P : Nat) : Int) + ((d * P + T : Nat) : Int) ∧
      (if 64 ≤ d then (-1 : Int) else 0) * ((128 * P : Nat) : Int) + ((d * P + T : Nat) : Int)
        < ((64 * P : Nat) : Int) := by
  split
  · rename_i h
    have h1 : 64 * P ≤ d * P := Nat.mul_le_mul_right P h
    have h2 : d * P ≤ 127 * P := Nat.mul_le_mul_right P (by omega)
    push_cast
    constructor <;> omega
  · rename_i h
    have h2 : d * P ≤ 63 * P := Nat.mul_le_mul_right P (by omega)
    push_cast
    constructor <;> omega

theorem magnitude_lt_of_range (z : Int) (M : Nat) (h1 : -(M : Int) ≤ z) (h2 : z < (M : Int)) :
    magnitude z < M := by
  unfold magnitude
  split <;> omega

/-- The exact value accumulated by the signed decoder over the first `k`
octets of a buffer lies in `[-2^(7k-1), 2^(7k-1))`. -/
theorem accumInt_range (b : List Nat) (k : Nat) (hk : 0 < k) (hlen : k ≤ b.length) :
    -((64 * 128 ^ (k - 1) : Nat) : Int) ≤ accumInt (signInit b) (b.take k) ∧
      accumInt (signInit b) (b.take k) < ((64 * 128 ^ (k - 1) : Nat) : Int) := by
  cases b with
  | nil => simp at hlen; omega
  | cons x xs =>
    obtain ⟨m, rfl⟩ : ∃ m, k = m + 1 := ⟨k - 1, by omega⟩
    have hl : (xs.take m).length = m := by
      rw [List.length_take]
      simp at hlen
      omega
    have hT := accumNat_lt (xs.take m)
    rw [hl] at hT
    have hs : signInit (x :: xs) = if 64 ≤ x % 128 then (-1 : Int) else 0 := by
      unfold signInit
      simp only [List.getD_cons_zero]
      by_cases h : 64 ≤ x % 128
      · rw [if_pos ((bit6_iff x).mpr h), if_pos h]
      · rw [if_neg (fun hc => h ((bit6_iff x).mp hc)), if_neg h]
    have hU : accumNat 0 (x :: xs.take m) = x % 128 * 128 ^ m + accumNat 0 (xs.take m) := by
      have : accumNat 0 (x :: xs.take m) = accumNat (x % 128) (xs.take m) := by
        simp [accumNat]
      rw [this, accumNat_shift, hl]
    rw [List.take_succ_cons, accumInt_shift, hU, hs]
    simp only [List.length_cons, hl, Nat.add_sub_cancel]
    have key := signed_range (x % 128) (128 ^ m) (accumNat 0 (xs.take m))
      (Nat.mod_lt _ (by norm_num)) hT
    have e : ((128 : Int) ^ (m + 1)) = ((128 * 128 ^ m : Nat) : Int) := by
      push_cast; ring
    rw [e]
    exact key

theorem findIdx_of_framed (out : List Nat) (n : Nat) (hn : 0 < n)
    (h : ∀ j < n, ∃ d, d < 128 ∧ out[j]? = some (framed n j d)) :
    out.findIdx isLast = n - 1 ∧ n - 1 < out.length := by
  obtain ⟨d, hd, hx⟩ := h (n - 1) (by omega)
  refine ⟨findIdx_isLast_eq out (n - 1) _ hx ((framed_last n (n - 1) d hd).mpr (by omega)) ?_,
    (List.getElem?_eq_some_iff.mp hx).1⟩
  intro j hj y hy
  obtain ⟨d', hd', hx'⟩ := h j (by omega)
  rw [hx'] at hy
  rw [← Option.some.inj hy]
  intro hc
  have := (framed_last n j d' hd').mp hc
  omega

/-- For a value in `[-64 * P, 64 * P)`, the group `v / P` tells the sign: its
low seven bits are at least 64 exactly when `v` is negative, and the groups
above it are all copies of the sign. -/
theorem top_group (v : Int) (P : Nat) (hP : 0 < P)
    (h1 : -((64 * P : Nat) : Int) ≤ v) (h2 : v < ((64 * P : Nat) : Int)) :
    (64 ≤ (v / (P : Int) % 128).toNat ↔ v < 0) ∧
      v / (128 * (P : Int)) = if v < 0 then -1 else 0 := by
  have hP' : (0 : Int) < P := by exact_mod_cast hP
  have hlo : -64 ≤ v / (P : Int) := by
    rw [Int.le_ediv_iff_mul_le hP']
    push_cast at h1
    linarith
  have hhi : v / (P : Int) < 64 := by
    rw [Int.ediv_lt_iff_lt_mul hP']
    push_cast at h2
    linarith
  have hneg : v / (P : Int) < 0 ↔ v < 0 := by
    rw [Int.ediv_lt_iff_lt_mul hP']
    simp
  have hdd : v / (128 * (P : Int)) = v / (P : Int) / 128 := by
    rw [int_div_div_gen _ _ _ hP' (by norm_num), Int.mul_comm]
  refine ⟨?_, ?_⟩
  · rw [← hneg]; omega
  · rw [hdd]
    by_cases hv : v < 0
    · rw [if_pos hv]
      have := hneg.mpr hv
      omega
    · rw [if_neg hv]
      have : ¬ v / (P : Int) < 0 := fun hc => hv (hneg.mp hc)
      omega

theorem magnitude_range (v : Int) (M : Nat) (h : magnitude v < M) :
    -(M : Int) ≤ v ∧ v < (M : Int) := by
  unfold magnitude at h
  split at h <;> omega

theorem and_i64_0x7f_eq (z : Int) : and_i64 z 0x7f = z % 128 := by
  unfold and_i64
  have h : castU64 0x7f = 0x7f := by decide
  rw [h, and_0x7f]
  unfold castI64 toU64 castU64
  split <;> omega

theorem sar_i64_eq (z : Int) (m : Nat) : sar_i64 z (7 * m) = z / 128 ^ m := by
  unfold sar_i64
  rw [Int.shiftRight_eq_div_pow, Nat.pow_mul]
  norm_num

theorem shr_eq (v m : Nat) : v >>> (7 * m) = v / 128 ^ m := by
  rw [Nat.shiftRight_eq_div_pow, Nat.pow_mul]

theorem FindMSb_u64_unique (v p : Nat) (hv : v < 2 ^ 64) (h1 : 2 ^ p ≤ v)
    (h2 : v < 2 ^ (p + 1)) : FindMSb_u64 v = p := by
  have h0 : v ≠ 0 := by
    have := Nat.pow_pos (n := p) (show 0 < 2 by norm_num)
    omega
  have hl := FindMSb_u64_lower v hv h0
  have hu := FindMSb_u64_upper v hv
  rcases Nat.lt_trichotomy (FindMSb_u64 v) p with h | h | h
  · have : 2 ^ (FindMSb_u64 v + 1) ≤ 2 ^ p := Nat.pow_le_pow_right (by norm_num) h
    omega
  · exact h
  · have : 2 ^ (p + 1) ≤ 2 ^ FindMSb_u64 v := Nat.pow_le_pow_right (by norm_num) h
    omega

theorem highestSetBit_bounds (v p : Nat) (h : v.testBit p = true)
    (hh : ∀ i, p < i → v.testBit i = false) : 2 ^ p ≤ v ∧ v < 2 ^ (p + 1) :=
  ⟨Nat.testBit_implies_ge h, Nat.lt_pow_two_of_testBit v (fun i hi => hh i hi)⟩

theorem FindMSb_u64_of_highest (v p : Nat) (hv : v < 2 ^ 64) (h : highestSetBit v p) :
    FindMSb_u64 v = p := by
  rcases h with ⟨h0, hp⟩ | ⟨h1, h2⟩
  · subst h0 hp; exact FindMSb_u64_zero
  · obtain ⟨a, b⟩ := highestSetBit_bounds v p h1 h2
    exact FindMSb_u64_unique v p hv a b

theorem FindMSb_u64_highest (v : Nat) (hv : v < 2 ^ 64) : highestSetBit v (FindMSb_u64 v) := by
  by_cases h0 : v = 0
  · left; subst h0; exact ⟨rfl, FindMSb_u64_zero⟩
  · right
    have hl := FindMSb_u64_lower v hv h0
    have hu := FindMSb_u64_upper v hv
    refine ⟨?_, fun i hi => ?_⟩
    · rw [Nat.testBit_to_div_mod]
      have hpos : 0 < 2 ^ FindMSb_u64 v := Nat.pow_pos (by norm_num)
      have h1 : 1 ≤ v / 2 ^ FindMSb_u64 v := (Nat.le_div_iff_mul_le hpos).mpr (by omega)
      have h2 : v / 2 ^ FindMSb_u64 v < 2 := by
        rw [Nat.div_lt_iff_lt_mul hpos, Nat.mul_comm, ← Nat.pow_succ]
        exact hu
      have : v / 2 ^ FindMSb_u64 v % 2 = 1 := by omega
      simp [this]
    · apply Nat.testBit_lt_two_pow
      have : 2 ^ (FindMSb_u64 v + 1) ≤ 2 ^ i := Nat.pow_le_pow_right (by norm_num) hi
      omega

theorem magnitude_eq (v : Int) :
    magnitude v = if v ≥ 0 then v.toNat else (~~~v).toNat := by
  unfold magnitude
  rw [int_not_eq]

theorem half_pow_cast (m : Nat) (hm : 0 < m) :
    ((64 * 128 ^ (m - 1) : Nat) : Int) = 2 ^ (7 * m - 1) := by
  rw [half_pow128 m hm]
  push_cast
  rfl

theorem findIdx_isLast_ge (b : List Nat) (m : Nat)
    (h : ∀ i < m, ∀ x, b[i]? = some x → x &&& 0x80 ≠ 0) (hlt : b.findIdx isLast < b.length) :
    m ≤ b.findIdx isLast := by
  by_contra hc
  have hp : isLast b[b.findIdx isLast] = true := List.findIdx_getElem
  have := h (b.findIdx isLast) (by omega) _ (List.getElem?_eq_getElem hlt)
  simp [isLast, this] at hp

theorem not_accepts_of_ten (b : List Nat)
    (h : ∀ i < 10, ∀ x, b[i]? = some x → x &&& 0x80 ≠ 0) :
    ¬ accepts_u64 b ∧ ¬ accepts_i64 b := by
  refine ⟨fun ha => ?_, fun ha => ?_⟩
  · have := findIdx_isLast_ge b 10 h ha.1
    have := ha.2.1
    omega
  · have := findIdx_isLast_ge b 10 h ha.1
    have := ha.2.1
    omega

theorem signInit_cons (x : Nat) (xs : List Nat) :
    signInit (x :: xs) = if 64 ≤ x % 128 then (-1 : Int) else 0 := by
  unfold signInit
  simp only [List.getD_cons_zero]
  by_cases h : 64 ≤ x % 128
  · rw [if_pos ((bit6_iff x).mpr h), if_pos h]
  · rw [if_neg (fun hc => h ((bit6_iff x).mp hc)), if_neg h]

/-- The exact signed accumulation over the first `m + 1` octets, split into the
sign, the payload of the first octet and the payload of the others. -/
theorem accumInt_decomp (x : Nat) (xs : List Nat) (m : Nat) (hm : m ≤ xs.length) :
    accumInt (signInit (x :: xs)) ((x :: xs).take (m + 1)) =
        (if 64 ≤ x % 128 then (-1 : Int) else 0) * ((128 * 128 ^ m : Nat) : Int) +
          ((x % 128 * 128 ^ m + accumNat 0 (xs.take m) : Nat) : Int) ∧
      accumNat 0 (xs.take m) < 128 ^ m := by
  have hl : (xs.take m).length = m := by
    rw [List.length_take]
    omega
  have hT := accumNat_lt (xs.take m)
  rw [hl] at hT
  have hU : accumNat 0 (x :: xs.take m) = x % 128 * 128 ^ m + accumNat 0 (xs.take m) := by
    have : accumNat 0 (x :: xs.take m) = accumNat (x % 128) (xs.take m) := by
      simp [accumNat]
    rw [this, accumNat_shift, hl]
  refine ⟨?_, hT⟩
  rw [List.take_succ_cons, accumInt_shift, hU, signInit_cons]
  simp only [List.length_cons, hl]
  have e : ((128 : Int) ^ (m + 1)) = ((128 * 128 ^ m : Nat) : Int) := by
    push_cast; ring
  rw [e]

theorem accumInt_sign (x : Nat) (xs : List Nat) (m : Nat) (hm : m ≤ xs.length) :
    accumInt (signInit (x :: xs)) ((x :: xs).take (m + 1)) < 0 ↔ 64 ≤ x % 128 := by
  obtain ⟨e, hT⟩ := accumInt_decomp x xs m hm
  rw [e]
  have hd : x % 128 < 128 := Nat.mod_lt _ (by norm_num)
  by_cases h : 64 ≤ x % 128
  · have h2 : x % 128 * 128 ^ m ≤ 127 * 128 ^ m := Nat.mul_le_mul_right _ (by omega)
    rw [if_pos h]
    constructor
    · intro _; exact h
    · intro _; omega
  · rw [if_neg h]
    constructor
    · intro hc; omega
    · intro hc; exact absurd hc h

/-- On an accepted input the exact signed accumulation fits `std::int64_t`. -/
theorem accumInt_fits (b : List Nat) (ha : accepts_i64 b) :
    -2 ^ 63 ≤ accumInt (signInit b) (b.take (b.findIdx isLast + 1)) ∧
      accumInt (signInit b) (b.take (b.findIdx isLast + 1)) < 2 ^ 63 := by
  obtain ⟨h1, h2, h3⟩ := ha
  by_cases h9 : b.findIdx isLast < 9
  · have hr := accumInt_range b (b.findIdx isLast + 1) (by omega) (by omega)
    have hp : 64 * 128 ^ (b.findIdx isLast + 1 - 1) ≤ 64 * 128 ^ 8 :=
      Nat.mul_le_mul_left 64 (Nat.pow_le_pow_right (by norm_num) (by omega))
    have : (64 * 128 ^ 8 : Nat) = 2 ^ 62 := by norm_num
    omega
  · have hj : b.findIdx isLast = 9 := by omega
    rw [hj] at h1 ⊢
    cases b with
    | nil => simp at h1
    | cons x xs =>
      obtain ⟨e, hT⟩ := accumInt_decomp x xs 9 (by simp at h1; omega)
      have hP : (128 : Nat) ^ 9 = 2 ^ 63 := by norm_num
      rw [e]
      rw [hP] at hT ⊢
      rcases h3 with h | h | h
      · omega
      · have : x = 0x80 := by simpa using h
        subst this
        norm_num
        omega
      · have : x = 0xff := by simpa using h
        subst this
        norm_num
        omega

theorem accumNat_div (l : List Nat) (m : Nat) :
    accumNat 0 l / 128 ^ (l.length - m) = accumNat 0 (l.take m) := by
  have hsplit : accumNat 0 l = accumNat (accumNat 0 (l.take m)) (l.drop m) := by
    unfold accumNat
    rw [← List.foldl_append, List.take_append_drop]
  have hlen : (l.drop m).length = l.length - m := List.length_drop m l
  have hlt := accumNat_lt (l.drop m)
  rw [hsplit, accumNat_shift, hlen]
  rw [hlen] at hlt
  have hpos : 0 < 128 ^ (l.length - m) := Nat.pow_pos (by norm_num)
  rw [Nat.add_comm, Nat.add_mul_div_right _ _ hpos, Nat.div_eq_of_lt hlt, Nat.zero_add]

theorem accumNat_digit (l : List Nat) (j x : Nat) (hx : l[j]? = some x) :
    accumNat 0 l / 128 ^ (l.length - 1 - j) % 128 = x % 128 := by
  have hj : j < l.length := (List.getElem?_eq_some_iff.mp hx).1
  have e : l.length - 1 - j = l.length - (j + 1) := by omega
  rw [e, accumNat_div l (j + 1), List.take_succ, hx]
  unfold accumNat
  rw [List.foldl_append]
  simp only [Option.toList_some, List.foldl_cons, List.foldl_nil]
  omega

theorem accumInt_digit (s : Int) (l : List Nat) (j x : Nat) (hx : l[j]? = some x) :
    accumInt s l / 128 ^ (l.length - 1 - j) % 128 = ((x % 128 : Nat) : Int) := by
  have hj : j < l.length := (List.getElem?_eq_some_iff.mp hx).1
  have hd := accumNat_digit l j x hx
  have e : l.length = (l.length - 1 - j) + (j + 1) := by omega
  have hpos : (0 : Int) < 128 ^ (l.length - 1 - j) := by positivity
  rw [accumInt_shift]
  have hs : s * 128 ^ l.length = 128 ^ (l.length - 1 - j) * (s * 128 ^ (j + 1)) := by
    conv_lhs => rw [e, pow_add]
    ring
  rw [hs, Int.add_comm, Int.add_mul_ediv_left _ _ (ne_of_gt hpos)]
  have hc : ((accumNat 0 l : Nat) : Int) / 128 ^ (l.length - 1 - j)
      = ((accumNat 0 l / 128 ^ (l.length - 1 - j) : Nat) : Int) := by
    push_cast
    rfl
  have hm : s * 128 ^ (j + 1) = (s * 128 ^ j) * 128 := by ring
  rw [hc, hm, Int.add_mul_emod_self]
  have h128 : (accumNat 0 l / 128 ^ (l.length - 1 - j) : Nat) % 128 = x % 128 := hd
  omega

/-- An octet below 256 whose continuation bit agrees with its position is the
framed form of its own payload. -/
theorem framed_eq (n j x : Nat) (hx : x < 256) (h : x &&& 0x80 = 0 ↔ j + 1 = n) :
    framed n j (x % 128) = x := by
  rw [and_0x80] at h
  unfold framed
  split
  · rename_i hne
    have : ¬ (x / 128 % 2 * 128 = 0) := fun hc => hne (h.mp hc)
    omega
  · rename_i he
    have he' : j + 1 = n := by omega
    have := h.mpr he'
    omega

/-- On an accepted input the octets before the terminating one have their
continuation bit set and the terminating one has it clear. -/
theorem accepted_bits (b : List Nat) (hlt : b.findIdx isLast < b.length) (j x : Nat)
    (hj : j ≤ b.findIdx isLast) (hx : b[j]? = some x) :
    x &&& 0x80 = 0 ↔ j + 1 = b.findIdx isLast + 1 := by
  have hjl : j < b.length := by omega
  have hxe : x = b[j] := by
    rw [List.getElem?_eq_getElem hjl] at hx
    exact (Option.some.inj hx).symm
  constructor
  · intro h0
    by_contra hne
    have hlt' : j < b.findIdx isLast := by omega
    have := List.not_of_lt_findIdx hlt'
    rw [← hxe] at this
    simp [isLast, h0] at this
  · intro he
    have hje : j = b.findIdx isLast := by omega
    have hp : isLast b[b.findIdx isLast] = true := List.findIdx_getElem
    subst hxe
    simp only [hje]
    simpa [isLast] using hp

theorem accumNat_cons (x : Nat) (l : List Nat) :
    accumNat 0 (x :: l) = x % 128 * 128 ^ l.length + accumNat 0 l := by
  have : accumNat 0 (x :: l) = accumNat (x % 128) l := by
    simp [accumNat]
  rw [this, accumNat_shift]

/-- On an accepted input the exact unsigned accumulation fits
`std::uint64_t`; at the maximum length it is at least `2^63`. -/
theorem accumNat_fits (b : List Nat) (ha : accepts_u64 b) :
    accumNat 0 (b.take (b.findIdx isLast + 1)) < 2 ^ 64 ∧
      (b.findIdx isLast = 9 → 2 ^ 63 ≤ accumNat 0 (b.take (b.findIdx isLast + 1))) := by
  obtain ⟨h1, h2, h3⟩ := ha
  have hlen : (b.take (b.findIdx isLast + 1)).length = b.findIdx isLast + 1 := by
    rw [List.length_take]; omega
  by_cases h9 : b.findIdx isLast < 9
  · have hlt := accumNat_lt (b.take (b.findIdx isLast + 1))
    rw [hlen] at hlt
    have hp : 128 ^ (b.findIdx isLast + 1) ≤ 128 ^ 9 :=
      Nat.pow_le_pow_right (by norm_num) (by omega)
    have : (128 : Nat) ^ 9 = 2 ^ 63 := by norm_num
    exact ⟨by omega, fun h => by omega⟩
  · have hj : b.findIdx isLast = 9 := by omega
    rw [hj] at h1 ⊢
    rcases h3 with h | h
    · omega
    · cases b with
      | nil => simp at h1
      | cons x xs =>
        have hx : x = 0x81 := by simpa using h
        subst hx
        have hl : (xs.take 9).length = 9 := by
          rw [List.length_take]
          simp at h1
          omega
        have hT := accumNat_lt (xs.take 9)
        rw [List.take_succ_cons, accumNat_cons, hl]
        rw [hl] at hT
        have hP : (128 : Nat) ^ 9 = 2 ^ 63 := by norm_num
        rw [hP] at hT ⊢
        exact ⟨by omega, fun _ => by omega⟩

/-- A successful unsigned decode yields the exact accumulation of the consumed
octets: nothing is lost to the 64-bit reduction. -/
theorem Deserialize_u64_exact (b : List Nat) (k v : Nat)
    (h : Deserialize_u64 b = .ok (k, v)) (hk : k ≠ 0) :
    accepts_u64 b ∧ k = b.findIdx isLast + 1 ∧ v = accumNat 0 (b.take k) ∧ v < 2 ^ 64 := by
  obtain ⟨ha, hkj, hv⟩ := Deserialize_u64_inv b k v h hk
  have hf := (accumNat_fits b ha).1
  rw [← hkj] at hf
  rw [Nat.mod_eq_of_lt hf] at hv
  exact ⟨ha, hkj, hv, by rw [hv]; exact hf⟩

/-- Re-encoding a decoded value whose required size is the consumed count
writes the consumed octets back. -/
theorem reencode_u64 (b : List Nat) (hb : ∀ x ∈ b, x < 256) (k v : Nat)
    (h : Deserialize_u64 b = .ok (k, v)) (hk : k ≠ 0) (hsize : VarUintSize v = k)
    (buffer : List Nat) (hlen : k ≤ buffer.length) :
    ∃ out, Serialize_u64 buffer v = .ok (k, out) ∧ out.take k = b.take k := by
  obtain ⟨ha, hkj, hv, _⟩ := Deserialize_u64_exact b k v h hk
  obtain ⟨out, e, _, hp⟩ := Serialize_u64_spec buffer v (by rw [hsize]; exact hlen)
  rw [hsize] at e hp
  have hkl : k ≤ b.length := by have := ha.1; omega
  have hl : (b.take k).length = k := by rw [List.length_take]; omega
  refine ⟨out, e, ?_⟩
  have key := take_eq_of_getElem? out (b.take k) ?_
  · rw [hl] at key; exact key
  · intro j hj
    rw [hl] at hj
    have hjl : j < b.length := by omega
    have hx : (b.take k)[j]? = some b[j] := by
      rw [List.getElem?_take_of_lt hj, List.getElem?_eq_getElem hjl]
    have hd := accumNat_digit (b.take k) j b[j] hx
    rw [hl, ← hv] at hd
    rw [hp j, if_pos hj, hx, hd]
    congr 1
    apply framed_eq k j b[j] (hb _ (List.getElem_mem hjl))
    rw [hkj]
    exact accepted_bits b ha.1 j b[j] (by omega) (List.getElem?_eq_getElem hjl)

/-- A successful signed decode yields the exact two's complement accumulation of
the consumed octets: nothing is lost to the 64-bit reduction. -/
theorem Deserialize_i64_exact (b : List Nat) (v0 : Int) (k : Nat) (v : Int)
    (h : Deserialize_i64 b v0 = .ok (k, v)) (hk : k ≠ 0) :
    accepts_i64 b ∧ k = b.findIdx isLast + 1 ∧ v = accumInt (signInit b) (b.take k) ∧
      -2 ^ 63 ≤ v ∧ v < 2 ^ 63 := by
  obtain ⟨ha, hkj, hv⟩ := Deserialize_i64_inv b v0 k v h hk
  have hfit := accumInt_fits b ha
  rw [← hkj] at hfit
  rw [wrapI64_of_range _ hfit.1 hfit.2] at hv
  exact ⟨ha, hkj, hv, by rw [hv]; exact hfit.1, by rw [hv]; exact hfit.2⟩

/-- Re-encoding a decoded signed value whose required size is the consumed
count writes the consumed octets back. -/
theorem reencode_i64 (b : List Nat) (hb : ∀ x ∈ b, x < 256) (v0 : Int) (k : Nat) (v : Int)
    (h : Deserialize_i64 b v0 = .ok (k, v)) (hk : k ≠ 0) (hsize : VarIntSize v = k)
    (buffer : List Nat) (hlen : k ≤ buffer.length) :
    ∃ out, Serialize_i64 buffer v = .ok (k, out) ∧ out.take k = b.take k := by
  obtain ⟨ha, hkj, hv, _, _⟩ := Deserialize_i64_exact b v0 k v h hk
  obtain ⟨out, e, _, hp⟩ := Serialize_i64_spec buffer v (by rw [hsize]; exact hlen)
  rw [hsize] at e hp
  have hkl : k ≤ b.length := by have := ha.1; omega
  have hl : (b.take k).length = k := by rw [List.length_take]; omega
  refine ⟨out, e, ?_⟩
  have key := take_eq_of_getElem? out (b.take k) ?_
  · rw [hl] at key; exact key
  · intro j hj
    rw [hl] at hj
    have hjl : j < b.length := by omega
    have hx : (b.take k)[j]? = some b[j] := by
      rw [List.getElem?_take_of_lt hj, List.getElem?_eq_getElem hjl]
    have hd := accumInt_digit (signInit b) (b.take k) j b[j] hx
    rw [hl, ← hv] at hd
    rw [hp j, if_pos hj, hx, hd, Int.toNat_ofNat]
    congr 1
    apply framed_eq k j b[j] (hb _ (List.getElem_mem hjl))
    rw [hkj]
    exact accepted_bits b ha.1 j b[j] (by omega) (List.getElem?_eq_getElem hjl)

theorem VarIntSize_eq_ten (v : Int) (hlo : -2 ^ 63 ≤ v) (hhi : v < 2 ^ 63) :
    VarIntSize v = 10 ↔ (2 ^ 62 ≤ v ∨ v < -2 ^ 62) := by
  constructor
  · intro h
    have := VarIntSize_ten v hlo hhi h
    unfold magnitude at this
    split at this <;> omega
  · intro h
    have hle := VarIntSize_le v
    by_contra hc
    have hb := VarIntSize_bound v hlo hhi
    have hp : 64 * 128 ^ (VarIntSize v - 1) ≤ 64 * 128 ^ 8 :=
      Nat.mul_le_mul_left 64 (Nat.pow_le_pow_right (by norm_num) (by omega))
    have h62 : (64 * 128 ^ 8 : Nat) = 2 ^ 62 := by norm_num
    unfold magnitude at hb
    split at hb <;> omega

theorem VarUintSize_eq_iff (v k : Nat) (hv : v < 2 ^ 64) (hk : 2 ≤ k)
    (hle : VarUintSize v ≤ k) : VarUintSize v = k ↔ 128 ^ (k - 1) ≤ v := by
  constructor
  · intro h
    by_contra hc
    have := VarUintSize_le_of_lt v (k - 1) hv (by omega) (by omega)
    omega
  · intro h
    by_contra hc
    have hb := VarUintSize_bound v hv
    have : 128 ^ VarUintSize v ≤ 128 ^ (k - 1) := Nat.pow_le_pow_right (by norm_num) (by omega)
    omega

theorem VarIntSize_eq_iff (v : Int) (k : Nat) (hlo : -2 ^ 63 ≤ v) (hhi : v < 2 ^ 63)
    (hk : 2 ≤ k) (hle : VarIntSize v ≤ k) :
    VarIntSize v = k ↔ ¬ magnitude v < 64 * 128 ^ (k - 2) := by
  have e : k - 2 = k - 1 - 1 := by omega
  constructor
  · intro h hc
    rw [e] at hc
    have := VarIntSize_le_of_lt v (k - 1) hlo hhi (by omega) hc
    omega
  · intro h
    by_contra hc
    have hb := VarIntSize_bound v hlo hhi
    have hpos := VarIntSize_pos v
    have : 64 * 128 ^ (VarIntSize v - 1) ≤ 64 * 128 ^ (k - 2) :=
      Nat.mul_le_mul_left 64 (Nat.pow_le_pow_right (by norm_num) (by omega))
    omega

/-- With payloads `d0`, `d1` of the first two octets and `T` of the rest, the
decoded signed value fits one octet less exactly when the first payload only
repeats the sign bit of the second. -/
theorem padded_iff (d0 d1 Q T : Nat) (h0 : d0 < 128) (h1 : d1 < 128) (hT : T < Q) :
    (-((64 * Q : Nat) : Int) ≤
        (if 64 ≤ d0 then (-1 : Int) else 0) * ((128 * (128 * Q) : Nat) : Int)
          + ((d0 * (128 * Q) + (d1 * Q + T) : Nat) : Int) ∧
      (if 64 ≤ d0 then (-1 : Int) else 0) * ((128 * (128 * Q) : Nat) : Int)
          + ((d0 * (128 * Q) + (d1 * Q + T) : Nat) : Int) < ((64 * Q : Nat) : Int)) ↔
      (d0 = 0 ∧ d1 < 64) ∨ (d0 = 127 ∧ 64 ≤ d1) := by
  have e0 : d0 * (128 * Q) = 128 * (d0 * Q) := by ring
  rw [e0]
  have up0 : ∀ c, d0 ≤ c → d0 * Q ≤ c * Q := fun c h => Nat.mul_le_mul_right Q h
  have lo0 : ∀ c, c ≤ d0 → c * Q ≤ d0 * Q := fun c h => Nat.mul_le_mul_right Q h
  have up1 : ∀ c, d1 ≤ c → d1 * Q ≤ c * Q := fun c h => Nat.mul_le_mul_right Q h
  have lo1 : ∀ c, c ≤ d1 → c * Q ≤ d1 * Q := fun c h => Nat.mul_le_mul_right Q h
  have a127 := up0 127 (by omega)
  have b127 := up1 127 (by omega)
  by_cases hs : 64 ≤ d0
  · rw [if_pos hs]
    by_cases h127 : d0 = 127
    · subst h127
      by_cases hd1 : 64 ≤ d1
      · have := lo1 64 hd1
        constructor
        · intro _; right; exact ⟨rfl, hd1⟩
        · intro _; constructor <;> omega
      · have := up1 63 (by omega)
        constructor
        · intro h; omega
        · intro h; omega
    · have := up0 126 (by omega)
      constructor
      · intro h; omega
      · intro h; omega
  · rw [if_neg hs]
    by_cases h00 : d0 = 0
    · subst h00
      by_cases hd1 : 64 ≤ d1
      · have := lo1 64 hd1
        constructor
        · intro h; omega
        · intro h; omega
      · have := up1 63 (by omega)
        constructor
        · intro _; left; exact ⟨rfl, by omega⟩
        · intro _; constructor <;> omega
    · have := lo0 1 (by omega)
      constructor
      · intro h; omega
      · intro h; omega

theorem decoded_size_le_u64 (b : List Nat) (k v : Nat)
    (h : Deserialize_u64 b = .ok (k, v)) (hk : k ≠ 0) : VarUintSize v ≤ k := by
  obtain ⟨ha, hkj, hv, hv64⟩ := Deserialize_u64_exact b k v h hk
  by_cases h10 : k = 10
  · rw [h10]; exact VarUintSize_le v
  · apply VarUintSize_le_of_lt v k hv64 (by omega)
    have hlen : (b.take k).length = k := by
      rw [List.length_take]
      have := ha.1
      omega
    have hlt := accumNat_lt (b.take k)
    rw [hlen] at hlt
    rw [hv]
    exact hlt

theorem decoded_size_le_i64 (b : List Nat) (v0 : Int) (k : Nat) (v : Int)
    (h : Deserialize_i64 b v0 = .ok (k, v)) (hk : k ≠ 0) : VarIntSize v ≤ k := by
  obtain ⟨ha, hkj, hv, hlo, hhi⟩ := Deserialize_i64_exact b v0 k v h hk
  by_cases h10 : k = 10
  · rw [h10]; exact VarIntSize_le v
  · have hr := accumInt_range b k (by omega) (by have := ha.1; omega)
    rw [← hv] at hr
    exact VarIntSize_le_of_lt v k hlo hhi (by omega) (magnitude_lt_of_range _ _ hr.1 hr.2)

/-- The unsigned decoder consumed exactly the minimal number of octets for the
value it yields when, and only when, the payload of the first octet is
non-zero (or a single octet was consumed). -/
theorem decoded_size_eq_u64 (b : List Nat) (k v : Nat)
    (h : Deserialize_u64 b = .ok (k, v)) (hk : k ≠ 0) :
    VarUintSize v = k ↔ k = 1 ∨ ∃ x, b[0]? = some x ∧ x &&& 0x7f ≠ 0 := by
  obtain ⟨ha, hkj, hv, hv64⟩ := Deserialize_u64_exact b k v h hk
  have hle := decoded_size_le_u64 b k v h hk
  have hpos := VarUintSize_pos v
  by_cases h1 : k = 1
  · exact ⟨fun _ => Or.inl h1, fun _ => by omega⟩
  · have hlen := ha.1
    cases b with
    | nil => simp at hlen
    | cons x xs =>
      obtain ⟨m, rfl⟩ : ∃ m, k = m + 1 := ⟨k - 1, by omega⟩
      have hl : (xs.take m).length = m := by
        rw [List.length_take]
        simp at hlen
        omega
      have hT := accumNat_lt (xs.take m)
      rw [hl] at hT
      rw [List.take_succ_cons, accumNat_cons, hl] at hv
      rw [VarUintSize_eq_iff v (m + 1) hv64 (by omega) hle, Nat.add_sub_cancel]
      have hx0 : (x :: xs)[0]? = some x := by simp
      constructor
      · intro hge
        right
        refine ⟨x, hx0, ?_⟩
        rw [and_0x7f]
        intro hz
        rw [hz] at hv
        omega
      · rintro (hc | ⟨y, hy, hne⟩)
        · exact absurd hc h1
        · rw [hx0] at hy
          rw [← Option.some.inj hy, and_0x7f] at hne
          have : 1 * 128 ^ m ≤ x % 128 * 128 ^ m := Nat.mul_le_mul_right _ (by omega)
          omega

/-- The signed decoder consumed exactly the minimal number of octets for the
value it yields when, and only when, the payload of the first octet is not a
mere repetition of the sign bit of the second octet (or a single octet was
consumed). -/
theorem decoded_size_eq_i64 (b : List Nat) (v0 : Int) (k : Nat) (v : Int)
    (h : Deserialize_i64 b v0 = .ok (k, v)) (hk : k ≠ 0) :
    VarIntSize v = k ↔ k = 1 ∨ ∃ x y, b[0]? = some x ∧ b[1]? = some y ∧
      ¬ (x &&& 0x7f = 0 ∧ y &&& 0x40 = 0) ∧ ¬ (x &&& 0x7f = 0x7f ∧ y &&& 0x40 ≠ 0) := by
  obtain ⟨ha, hkj, hv, hlo, hhi⟩ := Deserialize_i64_exact b v0 k v h hk
  have hle := decoded_size_le_i64 b v0 k v h hk
  have hpos := VarIntSize_pos v
  by_cases h1 : k = 1
  · exact ⟨fun _ => Or.inl h1, fun _ => by omega⟩
  · have hlen := ha.1
    match b, hlen with
    | [], hlen => simp at hlen
    | [x], hlen =>
      simp only [List.length_singleton] at hlen
      omega
    | x :: y :: ys, hlen =>
      obtain ⟨m, rfl⟩ : ∃ m, k = m + 2 := ⟨k - 2, by omega⟩
      have hm : m ≤ ys.length := by
        simp only [List.length_cons] at hlen
        omega
      have hl : (ys.take m).length = m := by
        rw [List.length_take]; omega
      have hT := accumNat_lt (ys.take m)
      rw [hl] at hT
      obtain ⟨e, _⟩ := accumInt_decomp x (y :: ys) (m + 1) (by simp; omega)
      rw [List.take_succ_cons, List.take_succ_cons, accumNat_cons, hl, Nat.pow_succ,
        Nat.mul_comm (128 ^ m) 128] at e
      rw [List.take_succ_cons, List.take_succ_cons, e] at hv
      have key := padded_iff (x % 128) (y % 128) (128 ^ m) (accumNat 0 (ys.take m))
        (Nat.mod_lt _ (by norm_num)) (Nat.mod_lt _ (by norm_num)) hT
      rw [← hv] at key
      have hmag : magnitude v < 64 * 128 ^ (m + 2 - 2) ↔
          (x % 128 = 0 ∧ y % 128 < 64) ∨ (x % 128 = 127 ∧ 64 ≤ y % 128) := by
        rw [Nat.add_sub_cancel, ← key]
        exact ⟨fun hc => magnitude_range v _ hc, fun hc => magnitude_lt_of_range v _ hc.1 hc.2⟩
      rw [VarIntSize_eq_iff v (m + 2) hlo hhi (by omega) hle, hmag]
      have hx0 : (x :: y :: ys)[0]? = some x := by simp
      have hy1 : (x :: y :: ys)[1]? = some y := by simp
      have hb6 : y &&& 0x40 = 0 ↔ y % 128 < 64 := by
        have := bit6_iff y
        constructor
        · intro hz; by_contra hc; exact (this.mpr (by omega)) hz
        · intro hz; by_contra hc; have := this.mp hc; omega
      constructor
      · intro hnot
        right
        refine ⟨x, y, hx0, hy1, ?_, ?_⟩
        · rintro ⟨hx, hy⟩
          rw [and_0x7f] at hx
          exact hnot (Or.inl ⟨hx, hb6.mp hy⟩)
        · rintro ⟨hx, hy⟩
          rw [and_0x7f] at hx
          exact hnot (Or.inr ⟨hx, (bit6_iff y).mp hy⟩)
      · rintro (hc | ⟨x', y', hx', hy', hn1, hn2⟩)
        · exact absurd hc h1
        · rw [hx0] at hx'
          rw [hy1] at hy'
          rw [← Option.some.inj hx', ← Option.some.inj hy', and_0x7f] at hn1 hn2
          rintro (⟨hx, hy⟩ | ⟨hx, hy⟩)
          · exact hn1 ⟨hx, hb6.mpr hy⟩
          · exact hn2 ⟨hx, (bit6_iff y).mpr hy⟩

theorem getElem?_of_take_eq (b b' : List Nat) (k j : Nat) (h : b'.take k = b.take k)
    (hj : j < k) : b'[j]? = b[j]? := by
  rw [← List.getElem?_take_of_lt hj, h, List.getElem?_take_of_lt hj]

/-- A buffer that shares the consumed prefix with an accepted buffer has its
first terminating octet at the same index. -/
theorem findIdx_of_take_eq (b b' : List Nat) (hlt : b.findIdx isLast < b.length)
    (h : b'.take (b.findIdx isLast + 1) = b.take (b.findIdx isLast + 1)) :
    b'.findIdx isLast = b.findIdx isLast ∧ b'.findIdx isLast < b'.length := by
  have hx : b'[b.findIdx isLast]? = some b[b.findIdx isLast] := by
    rw [getElem?_of_take_eq b b' _ _ h (by omega), List.getElem?_eq_getElem hlt]
  have e : b'.findIdx isLast = b.findIdx isLast := by
    apply findIdx_isLast_eq b' _ _ hx
    · exact (accepted_bits b hlt _ _ (Nat.le_refl _) (List.getElem?_eq_getElem hlt)).mpr rfl
    · intro i hi y hy
      rw [getElem?_of_take_eq b b' _ _ h (by omega)] at hy
      intro hc
      have := (accepted_bits b hlt i y (by omega) hy).mp hc
      omega
  exact ⟨e, by rw [e]; exact (List.getElem?_eq_some_iff.mp hx).1⟩

theorem payloadSum_append (l : List Nat) (x : Nat) :
    payloadSum (l ++ [x]) (l.length + 1) = payloadSum l l.length * 128 + x % 128 := by
  unfold payloadSum
  rw [Finset.sum_range_succ, Finset.sum_mul]
  congr 1
  · apply Finset.sum_congr rfl
    intro i hi
    have hil : i < l.length := Finset.mem_range.mp hi
    have e : 7 * (l.length + 1 - 1 - i) = 7 * (l.length - 1 - i) + 7 := by omega
    rw [List.getD_append _ _ _ _ hil, e, Nat.pow_add]
    ring
  · rw [List.getD_append_right _ _ _ _ (Nat.le_refl _), Nat.sub_self, and_0x7f]
    simp

theorem accumNat_eq_payloadSum (l : List Nat) : accumNat 0 l = payloadSum l l.length := by
  induction l using List.reverseRecOn with
  | nil => rfl
  | append_singleton l x ih =>
    rw [List.length_append, List.length_singleton, payloadSum_append, ← ih]
    unfold accumNat
    rw [List.foldl_append]
    rfl

theorem payloadSum_take (b : List Nat) (k : Nat) :
    payloadSum (b.take k) k = payloadSum b k := by
  unfold payloadSum
  apply Finset.sum_congr rfl
  intro i hi
  have hik : i < k := Finset.mem_range.mp hi
  rw [List.getD_eq_getElem?_getD, List.getD_eq_getElem?_getD, List.getElem?_take_of_lt hik]

/-- On an accepted input every intermediate unsigned accumulator is exact and
small enough to be shifted left by 7 within 64 bits. -/
theorem accum_u64_prefix (b : List Nat) (ha : accepts_u64 b) (m : Nat)
    (hm : m < b.findIdx isLast + 1) :
    accum_u64 0 (b.take m) = accumNat 0 (b.take m) ∧
      accumNat 0 (b.take m) * 128 < 2 ^ 64 := by
  have hfit := (accumNat_fits b ha).1
  have hkl : b.findIdx isLast + 1 ≤ b.length := ha.1
  have hl : (b.take (b.findIdx isLast + 1)).length = b.findIdx isLast + 1 := by
    rw [List.length_take]; omega
  have hdiv := accumNat_div (b.take (b.findIdx isLast + 1)) m
  rw [hl, List.take_take, Nat.min_eq_left (by omega)] at hdiv
  have hdiv1 := accumNat_div (b.take (b.findIdx isLast + 1)) (m + 1)
  rw [hl] at hdiv1
  have e : b.findIdx isLast + 1 - m = (b.findIdx isLast + 1 - (m + 1)) + 1 := by omega
  have hA : accumNat 0 (b.take m) * 128 ≤ accumNat 0 (b.take (b.findIdx isLast + 1)) := by
    rw [← hdiv, e, Nat.pow_succ, ← Nat.div_div_eq_div_mul]
    exact Nat.le_trans (Nat.div_mul_le_self _ _) (Nat.div_le_self _ _)
  refine ⟨?_, by omega⟩
  rw [accum_u64_eq _ 0 (by norm_num)]
  exact Nat.mod_eq_of_lt (by omega)

theorem accumInt_div (s : Int) (l : List Nat) (m : Nat) (hm : m ≤ l.length) :
    accumInt s l / 128 ^ (l.length - m) = accumInt s (l.take m) := by
  have hl : (l.take m).length = m := by rw [List.length_take]; omega
  have hpos : (0 : Int) < 128 ^ (l.length - m) := by positivity
  have e : l.length = (l.length - m) + m := by omega
  have hs : s * 128 ^ l.length = 128 ^ (l.length - m) * (s * 128 ^ m) := by
    conv_lhs => rw [e, pow_add]
    ring
  have hc : ((accumNat 0 l : Nat) : Int) / 128 ^ (l.length - m)
      = ((accumNat 0 l / 128 ^ (l.length - m) : Nat) : Int) := by
    push_cast
    rfl
  rw [accumInt_shift, accumInt_shift s (l.take m), hl, hs, Int.add_comm,
    Int.add_mul_ediv_left _ _ (ne_of_gt hpos), hc, accumNat_div, Int.add_comm]

theorem int_div_range (z c : Int) (hc : 0 < c) (h1 : -2 ^ 63 ≤ z) (h2 : z < 2 ^ 63) :
    -2 ^ 63 ≤ z / c ∧ z / c < 2 ^ 63 := by
  constructor
  · rw [Int.le_ediv_iff_mul_le hc]
    nlinarith
  · rw [Int.ediv_lt_iff_lt_mul hc]
    nlinarith

theorem shl_i64_eq (a : Int) : shl_i64 a 7 = wrapI64 (a * 128) := by
  unfold shl_i64 wrapI64
  rw [Nat.shiftLeft_eq]
  unfold castI64 castU64 toU64
  split <;> split <;> omega

/-- On an accepted input every intermediate signed accumulator is exact and can
be shifted left by 7 without leaving `std::int64_t`. -/
theorem accum_i64_prefix (b : List Nat) (ha : accepts_i64 b) (m : Nat)
    (hm : m < b.findIdx isLast + 1) :
    accum_i64 (signInit b) (b.take m) = accumInt (signInit b) (b.take m) ∧
      -2 ^ 63 ≤ accumInt (signInit b) (b.take m) * 128 ∧
      accumInt (signInit b) (b.take m) * 128 < 2 ^ 63 := by
  have hfit := accumInt_fits b ha
  have hkl : b.findIdx isLast + 1 ≤ b.length := ha.1
  have hl : (b.take (b.findIdx isLast + 1)).length = b.findIdx isLast + 1 := by
    rw [List.length_take]; omega
  have hdiv := accumInt_div (signInit b) (b.take (b.findIdx isLast + 1)) m (by omega)
  rw [hl, List.take_take, Nat.min_eq_left (by omega)] at hdiv
  have hdiv1 := accumInt_div (signInit b) (b.take (b.findIdx isLast + 1)) (m + 1) (by omega)
  rw [hl, List.take_take, Nat.min_eq_left (by omega)] at hdiv1
  have hr1 := int_div_range _ (128 ^ (b.findIdx isLast + 1 - (m + 1))) (by positivity)
    hfit.1 hfit.2
  rw [hdiv1] at hr1
  have e : b.findIdx isLast + 1 - m = (b.findIdx isLast + 1 - (m + 1)) + 1 := by omega
  have hstep : accumInt (signInit b) (b.take m)
      = accumInt (signInit b) (b.take (m + 1)) / 128 := by
    rw [← hdiv, ← hdiv1, e, pow_succ, int_div_div_gen _ _ _ (by positivity) (by norm_num)]
  have hrange : -2 ^ 63 ≤ accumInt (signInit b) (b.take m) * 128 ∧
      accumInt (signInit b) (b.take m) * 128 < 2 ^ 63 := by
    rw [hstep]
    constructor <;> omega
  refine ⟨?_, hrange⟩
  rw [signInit_wrap b, accum_i64_eq, ← signInit_wrap b]
  exact wrapI64_of_range _ (by omega) (by omega)

/-- Decoding what the unsigned encoder wrote gives the count and the value
back. -/
theorem roundtrip_u64 (buffer : List Nat) (v n : Nat) (out : List Nat)
    (hv : v < 2 ^ 64) (h : Serialize_u64 buffer v = .ok (n, out)) (hn : n ≠ 0) :
    Deserialize_u64 out = .ok (n, v) := by
  obtain ⟨hsize, _, _, hp⟩ := Serialize_u64_inv buffer v n out h hn
  have hpos : 0 < n := Nat.pos_of_ne_zero hn
  have hn10 : n ≤ 10 := by rw [hsize]; exact VarUintSize_le v
  have hfr : ∀ j < n, ∃ d, d < 128 ∧ out[j]? = some (framed n j d) := by
    intro j hj
    exact ⟨_, Nat.mod_lt _ (by norm_num), by rw [hp j, if_pos hj]⟩
  obtain ⟨hidx, hlt⟩ := findIdx_of_framed out n hpos hfr
  have hacc : accepts_u64 out := by
    refine ⟨by rw [hidx]; exact hlt, by rw [hidx]; omega, ?_⟩
    rw [hidx]
    by_cases h10 : n = 10
    · right
      have h63 := VarUintSize_ten v hv (by rw [← hsize]; exact h10)
      have hd : v / 128 ^ 9 % 128 = 1 := by
        have : (128 : Nat) ^ 9 = 2 ^ 63 := by norm_num
        rw [this]
        omega
      rw [hp 0, if_pos hpos, h10]
      show some (framed 10 0 (v / 128 ^ 9 % 128)) = some 129
      rw [hd]
      rfl
    · left; omega
  have hdig : ∀ j < n, ∃ x, out[j]? = some x ∧ x % 128 = v / 128 ^ (n - 1 - j) % 128 := by
    intro j hj
    refine ⟨_, by rw [hp j, if_pos hj], framed_mod _ _ _ (Nat.mod_lt _ (by norm_num))⟩
  have hval := accumNat_digits out n v hdig n (Nat.le_refl n)
  have hzero : v / 128 ^ n = 0 := by
    rw [hsize]
    exact Nat.div_eq_of_lt (VarUintSize_bound v hv)
  rw [hzero, Nat.sub_self, Nat.pow_zero, Nat.div_one] at hval
  rw [Deserialize_u64_accept out hacc, hidx, Nat.sub_add_cancel hpos,
    accum_u64_eq _ 0 (by norm_num), hval, Nat.mod_eq_of_lt hv]

/-- Decoding what the signed encoder wrote gives the count and the value
back. -/
theorem roundtrip_i64 (buffer : List Nat) (v : Int) (n : Nat) (out : List Nat)
    (v0 : Int) (hlo : -2 ^ 63 ≤ v) (hhi : v < 2 ^ 63)
    (h : Serialize_i64 buffer v = .ok (n, out)) (hn : n ≠ 0) :
    Deserialize_i64 out v0 = .ok (n, v) := by
  obtain ⟨hsize, _, _, hp⟩ := Serialize_i64_inv buffer v n out h hn
  have hpos : 0 < n := Nat.pos_of_ne_zero hn
  have hn10 : n ≤ 10 := by rw [hsize]; exact VarIntSize_le v
  have hdlt : ∀ z : Int, (z % 128).toNat < 128 := by intro z; omega
  have hfr : ∀ j < n, ∃ d, d < 128 ∧ out[j]? = some (framed n j d) := by
    intro j hj
    exact ⟨_, hdlt _, by rw [hp j, if_pos hj]⟩
  obtain ⟨hidx, hlt⟩ := findIdx_of_framed out n hpos hfr
  have hacc : accepts_i64 out := by
    refine ⟨by rw [hidx]; exact hlt, by rw [hidx]; omega, ?_⟩
    rw [hidx]
    by_cases h10 : n = 10
    · right
      have h0 := hp 0
      rw [if_pos hpos, h10] at h0
      have e9 : (10 - 1 - 0 : Nat) = 9 := rfl
      rw [e9] at h0
      have hp9 : (128 : Int) ^ 9 = 2 ^ 63 := by norm_num
      rw [hp9] at h0
      by_cases hneg : v < 0
      · right
        have : (v / 2 ^ 63 % 128).toNat = 127 := by omega
        rw [h0, this]; rfl
      · left
        have : (v / 2 ^ 63 % 128).toNat = 0 := by omega
        rw [h0, this]; rfl
    · left; omega
  have hdig : ∀ j < n, ∃ x, out[j]? = some x ∧
      ((x % 128 : Nat) : Int) = v / 128 ^ (n - 1 - j) % 128 := by
    intro j hj
    refine ⟨_, by rw [hp j, if_pos hj], ?_⟩
    rw [framed_mod _ _ _ (hdlt _)]
    omega
  have hval := accumInt_digits out n v hdig n (Nat.le_refl n)
  rw [Nat.sub_self, pow_zero, Int.ediv_one] at hval
  have hbound := VarIntSize_bound v hlo hhi
  rw [← hsize] at hbound
  obtain ⟨hb1, hb2⟩ := magnitude_range v _ hbound
  obtain ⟨htop, hsign⟩ := top_group v (128 ^ (n - 1)) (Nat.pow_pos (by norm_num)) hb1 hb2
  have hpow : (128 : Int) * ((128 ^ (n - 1) : Nat) : Int) = 128 ^ n := by
    push_cast
    rw [← pow_succ']
    congr 1
    omega
  rw [hpow] at hsign
  have hinit : signInit out = v / 128 ^ n := by
    have h0 := hp 0
    rw [if_pos hpos, Nat.sub_zero] at h0
    unfold signInit
    rw [List.getD_eq_getElem?_getD, h0, Option.getD_some, hsign]
    push_cast at htop
    by_cases hneg : v < 0
    · rw [if_pos hneg, if_pos]
      rw [bit6_iff, framed_mod _ _ _ (hdlt _)]
      exact htop.mpr hneg
    · rw [if_neg hneg, if_neg]
      rw [bit6_iff, framed_mod _ _ _ (hdlt _)]
      exact fun hc => hneg (htop.mp hc)
  rw [Deserialize_i64_accept out v0 hacc, hidx, Nat.sub_add_cancel hpos,
    signInit_wrap out, accum_i64_eq, hinit, hval, wrapI64_of_range v hlo hhi]

theorem take_eq_take (out out2 : List Nat) (n : Nat) (h : ∀ j < n, out2[j]? = out[j]?) :
    out2.take n = out.take n := by
  apply List.ext_getElem?
  intro j
  by_cases hj : j < n
  · rw [List.getElem?_take_of_lt hj, List.getElem?_take_of_lt hj, h j hj]
  · rw [List.getElem?_take_eq_none (by omega), List.getElem?_take_eq_none (by omega)]

/-! ## Claims of the specification -/

/-- C5 (unsigned boundary vectors): with a buffer of at least 10 octets, the
unsigned `Serialize` of 0 returns 1 and writes `{0x00}`; of 0x80 returns 2 and
writes `{0x81, 0x00}`; of 0xFFFFFFFFFFFFFFFF returns 10 and writes
`{0x81, 0xff, 0xff, 0xff, 0xff, 0xff, 0xff, 0xff, 0xff, 0x7f}`. -/
theorem C5_unsigned_boundary_vectors (buffer : List Nat) (hlen : 10 ≤ buffer.length) :
    (∃ out, Serialize_u64 buffer 0 = .ok (1, out) ∧ out.take 1 = [0x00]) ∧
    (∃ out, Serialize_u64 buffer 0x80 = .ok (2, out) ∧ out.take 2 = [0x81, 0x00]) ∧
    (∃ out, Serialize_u64 buffer 0xFFFFFFFFFFFFFFFF = .ok (10, out) ∧
      out.take 10 = [0x81, 0xff, 0xff, 0xff, 0xff, 0xff, 0xff, 0xff, 0xff, 0x7f]) := by
  have s0 : VarUintSize 0 = 1 := by decide
  have s1 : VarUintSize 0x80 = 2 := by decide
  have s2 : VarUintSize 0xFFFFFFFFFFFFFFFF = 10 := by decide
  refine ⟨?_, ?_, ?_⟩
  · obtain ⟨out, e, _, hp⟩ := Serialize_u64_spec buffer 0 (by rw [s0]; omega)
    rw [s0] at e hp
    refine ⟨out, e, take_eq_of_getElem? out [0x00] ?_⟩
    intro j hj
    simp only [List.length_singleton] at hj
    rw [hp j, if_pos hj]
    interval_cases j
    decide
  · obtain ⟨out, e, _, hp⟩ := Serialize_u64_spec buffer 0x80 (by rw [s1]; omega)
    rw [s1] at e hp
    refine ⟨out, e, take_eq_of_getElem? out [0x81, 0x00] ?_⟩
    intro j hj
    simp only [List.length_cons, List.length_nil] at hj
    rw [hp j, if_pos hj]
    interval_cases j <;> decide
  · obtain ⟨out, e, _, hp⟩ := Serialize_u64_spec buffer 0xFFFFFFFFFFFFFFFF (by rw [s2]; omega)
    rw [s2] at e hp
    refine ⟨out, e, take_eq_of_getElem? out
      [0x81, 0xff, 0xff, 0xff, 0xff, 0xff, 0xff, 0xff, 0xff, 0x7f] ?_⟩
    intro j hj
    simp only [List.length_cons, List.length_nil] at hj
    rw [hp j, if_pos hj]
    interval_cases j <;> decide

/-- Witness of C5 on a buffer of twelve octets `0x22`. -/
theorem C5_unsigned_boundary_vectors_witness :
    10 ≤ (List.replicate 12 0x22).length ∧
    ((∃ out, Serialize_u64 (List.replicate 12 0x22) 0 = .ok (1, out) ∧ out.take 1 = [0x00]) ∧
    (∃ out, Serialize_u64 (List.replicate 12 0x22) 0x80 = .ok (2, out) ∧
      out.take 2 = [0x81, 0x00]) ∧
    (∃ out, Serialize_u64 (List.replicate 12 0x22) 0xFFFFFFFFFFFFFFFF = .ok (10, out) ∧
      out.take 10 = [0x81, 0xff, 0xff, 0xff, 0xff, 0xff, 0xff, 0xff, 0xff, 0x7f])) :=
  ⟨by decide, C5_unsigned_boundary_vectors (List.replicate 12 0x22) (by decide)⟩

/-- C6 (signed boundary vectors): with a buffer of at least 10 octets, the
signed `Serialize` of -1 returns 1 and writes `{0x7f}`; of 64 returns 2 and
writes `{0x80, 0x40}`; of INT64_MIN (-2^63 = -9223372036854775808) returns 10
and writes `{0xff, 0x80, 0x80, 0x80, 0x80, 0x80, 0x80, 0x80, 0x80, 0x00}`. -/
theorem C6_signed_boundary_vectors (buffer : List Nat) (hlen : 10 ≤ buffer.length) :
    (∃ out, Serialize_i64 buffer (-1) = .ok (1, out) ∧ out.take 1 = [0x7f]) ∧
    (∃ out, Serialize_i64 buffer 64 = .ok (2, out) ∧ out.take 2 = [0x80, 0x40]) ∧
    (∃ out, Serialize_i64 buffer (-9223372036854775808) = .ok (10, out) ∧
      out.take 10 = [0xff, 0x80, 0x80, 0x80, 0x80, 0x80, 0x80, 0x80, 0x80, 0x00]) := by
  have s0 : VarIntSize (-1) = 1 := by decide
  have s1 : VarIntSize 64 = 2 := by decide
  have s2 : VarIntSize (-9223372036854775808) = 10 := by decide
  refine ⟨?_, ?_, ?_⟩
  · obtain ⟨out, e, _, hp⟩ := Serialize_i64_spec buffer (-1) (by rw [s0]; omega)
    rw [s0] at e hp
    refine ⟨out, e, take_eq_of_getElem? out [0x7f] ?_⟩
    intro j hj
    simp only [List.length_singleton] at hj
    rw [hp j, if_pos hj]
    interval_cases j
    decide
  · obtain ⟨out, e, _, hp⟩ := Serialize_i64_spec buffer 64 (by rw [s1]; omega)
    rw [s1] at e hp
    refine ⟨out, e, take_eq_of_getElem? out [0x80, 0x40] ?_⟩
    intro j hj
    simp only [List.length_cons, List.length_nil] at hj
    rw [hp j, if_pos hj]
    interval_cases j <;> decide
  · obtain ⟨out, e, _, hp⟩ := Serialize_i64_spec buffer (-9223372036854775808)
      (by rw [s2]; omega)
    rw [s2] at e hp
    refine ⟨out, e, take_eq_of_getElem? out
      [0xff, 0x80, 0x80, 0x80, 0x80, 0x80, 0x80, 0x80, 0x80, 0x00] ?_⟩
    intro j hj
    simp only [List.length_cons, List.length_nil] at hj
    rw [hp j, if_pos hj]
    interval_cases j <;> decide

/-- Witness of C6 on a buffer of twelve octets `0x22`. -/
theorem C6_signed_boundary_vectors_witness :
    10 ≤ (List.replicate 12 0x22).length ∧
    ((∃ out, Serialize_i64 (List.replicate 12 0x22) (-1) = .ok (1, out) ∧
      out.take 1 = [0x7f]) ∧
    (∃ out, Serialize_i64 (List.replicate 12 0x22) 64 = .ok (2, out) ∧
      out.take 2 = [0x80, 0x40]) ∧
    (∃ out, Serialize_i64 (List.replicate 12 0x22) (-9223372036854775808) = .ok (10, out) ∧
      out.take 10 = [0xff, 0x80, 0x80, 0x80, 0x80, 0x80, 0x80, 0x80, 0x80, 0x00])) :=
  ⟨by decide, C6_signed_boundary_vectors (List.replicate 12 0x22) (by decide)⟩

/-- C9 (insufficient-space rejection): for every value, unsigned or signed,
whose required octet count is `N` (`VarUintSize` / `VarIntSize`), `Serialize`
into a buffer shorter than `N` returns 0 and leaves every octet of the buffer
as it was; into a buffer of length at least `N` it returns `N`, which is never
0. -/
theorem C9_insufficient_space (buffer : List Nat) :
    (∀ value : Nat,
      (buffer.length < VarUintSize value → Serialize_u64 buffer value = .ok (0, buffer)) ∧
      (VarUintSize value ≤ buffer.length →
        VarUintSize value ≠ 0 ∧
          ∃ out, Serialize_u64 buffer value = .ok (VarUintSize value, out))) ∧
    (∀ value : Int,
      (buffer.length < VarIntSize value → Serialize_i64 buffer value = .ok (0, buffer)) ∧
      (VarIntSize value ≤ buffer.length →
        VarIntSize value ≠ 0 ∧
          ∃ out, Serialize_i64 buffer value = .ok (VarIntSize value, out))) := by
  refine ⟨fun value => ⟨Serialize_u64_short buffer value, fun h => ?_⟩,
    fun value => ⟨Serialize_i64_short buffer value, fun h => ?_⟩⟩
  · obtain ⟨out, e, _⟩ := Serialize_u64_spec buffer value h
    exact ⟨Nat.ne_of_gt (VarUintSize_pos value), out, e⟩
  · obtain ⟨out, e, _⟩ := Serialize_i64_spec buffer value h
    exact ⟨Nat.ne_of_gt (VarIntSize_pos value), out, e⟩

/-- Witness of C9: 0x80 and 64 both need two octets; a one-octet buffer is
rejected and left alone, a two-octet buffer is accepted. -/
theorem C9_insufficient_space_witness :
    (Serialize_u64 [0x22] 0x80 = .ok (0, [0x22]) ∧
      (VarUintSize 0x80 ≠ 0 ∧
        ∃ out, Serialize_u64 [0x22, 0x22] 0x80 = .ok (VarUintSize 0x80, out))) ∧
    (Serialize_i64 [0x22] 64 = .ok (0, [0x22]) ∧
      (VarIntSize 64 ≠ 0 ∧
        ∃ out, Serialize_i64 [0x22, 0x22] 64 = .ok (VarIntSize 64, out))) :=
  ⟨⟨((C9_insufficient_space [0x22]).1 0x80).1 (by decide),
    ((C9_insufficient_space [0x22, 0x22]).1 0x80).2 (by decide)⟩,
   ⟨((C9_insufficient_space [0x22]).2 64).1 (by decide),
    ((C9_insufficient_space [0x22, 0x22]).2 64).2 (by decide)⟩⟩

/-- C10 (continuation-bit framing of encoder output): whenever the unsigned or
the signed `Serialize` succeeds with count `n`, each octet at an index
`0 .. n-2` has bit 7 (0x80) set and the octet at index `n-1` has bit 7
clear. -/
theorem C10_continuation_framing :
    (∀ (buffer : List Nat) (value n : Nat) (out : List Nat),
      Serialize_u64 buffer value = .ok (n, out) → n ≠ 0 →
        (∀ j, j + 1 < n → ∃ x, out[j]? = some x ∧ x &&& 0x80 = 0x80) ∧
        (∃ x, out[n - 1]? = some x ∧ x &&& 0x80 = 0)) ∧
    (∀ (buffer : List Nat) (value : Int) (n : Nat) (out : List Nat),
      Serialize_i64 buffer value = .ok (n, out) → n ≠ 0 →
        (∀ j, j + 1 < n → ∃ x, out[j]? = some x ∧ x &&& 0x80 = 0x80) ∧
        (∃ x, out[n - 1]? = some x ∧ x &&& 0x80 = 0)) := by
  have key : ∀ (n j d : Nat), d < 128 →
      (j + 1 < n → framed n j d &&& 0x80 = 0x80) ∧ (j = n - 1 → n ≠ 0 →
        framed n j d &&& 0x80 = 0) := by
    intro n j d hd
    rw [and_0x80]
    unfold framed
    refine ⟨fun h => ?_, fun h hn => ?_⟩
    · rw [if_pos (by omega)]; omega
    · rw [if_neg (by omega)]; omega
  refine ⟨?_, ?_⟩
  · intro buffer value n out h hn
    obtain ⟨_, _, _, hp⟩ := Serialize_u64_inv buffer value n out h hn
    refine ⟨fun j hj => ?_, ?_⟩
    · have e := hp j
      rw [if_pos (by omega)] at e
      exact ⟨_, e, (key n j _ (Nat.mod_lt _ (by norm_num))).1 hj⟩
    · have e := hp (n - 1)
      rw [if_pos (by omega)] at e
      exact ⟨_, e, (key n (n - 1) _ (Nat.mod_lt _ (by norm_num))).2 rfl hn⟩
  · intro buffer value n out h hn
    obtain ⟨_, _, _, hp⟩ := Serialize_i64_inv buffer value n out h hn
    have hd : ∀ z : Int, (z % 128).toNat < 128 := by intro z; omega
    refine ⟨fun j hj => ?_, ?_⟩
    · have e := hp j
      rw [if_pos (by omega)] at e
      exact ⟨_, e, (key n j _ (hd _)).1 hj⟩
    · have e := hp (n - 1)
      rw [if_pos (by omega)] at e
      exact ⟨_, e, (key n (n - 1) _ (hd _)).2 rfl hn⟩

/-- Witness of C10: the two-octet encodings of 0x80 (unsigned) and of 64
(signed) in a three-octet buffer. -/
theorem C10_continuation_framing_witness :
    ((∀ j, j + 1 < 2 → ∃ x, [0x81, 0x00, 0x22][j]? = some x ∧ x &&& 0x80 = 0x80) ∧
      (∃ x, [0x81, 0x00, 0x22][2 - 1]? = some x ∧ x &&& 0x80 = 0)) ∧
    ((∀ j, j + 1 < 2 → ∃ x, [0x80, 0x40, 0x22][j]? = some x ∧ x &&& 0x80 = 0x80) ∧
      (∃ x, [0x80, 0x40, 0x22][2 - 1]? = some x ∧ x &&& 0x80 = 0)) :=
  ⟨C10_continuation_framing.1 [0x22, 0x22, 0x22] 0x80 2 [0x81, 0x00, 0x22]
      (by decide) (by decide),
    C10_continuation_framing.2 [0x22, 0x22, 0x22] 64 2 [0x80, 0x40, 0x22]
      (by decide) (by decide)⟩

/-- C7 (the unsigned `Deserialize` succeeds exactly on well-terminated input):
let `j` be the least index of the buffer whose octet has bit 7 clear.  If
`j ≤ 9` and (`j < 9` or the first octet is `0x81`) the function returns `j + 1`;
if such a `j` exists but that condition fails, or if no octet of the buffer has
bit 7 clear (the empty buffer included), it returns 0. -/
theorem C7_unsigned_acceptance (b : List Nat) :
    (∀ j x, b[j]? = some x → x &&& 0x80 = 0 →
      (∀ i < j, ∀ y, b[i]? = some y → y &&& 0x80 ≠ 0) →
        (j ≤ 9 ∧ (j < 9 ∨ b[0]? = some 0x81) → ∃ v, Deserialize_u64 b = .ok (j + 1, v)) ∧
        (¬ (j ≤ 9 ∧ (j < 9 ∨ b[0]? = some 0x81)) → ∃ v, Deserialize_u64 b = .ok (0, v))) ∧
    ((∀ x ∈ b, x &&& 0x80 ≠ 0) → ∃ v, Deserialize_u64 b = .ok (0, v)) := by
  refine ⟨fun j x hx hlast hprev => ?_, fun h => ?_⟩
  · obtain ⟨e, hiff⟩ := accepts_u64_of_least b j x hx hlast hprev
    refine ⟨fun hc => ?_, fun hc => ?_⟩
    · have := Deserialize_u64_accept b (hiff.mpr hc)
      rw [e] at this
      exact ⟨_, this⟩
    · exact ⟨_, Deserialize_u64_reject b (fun ha => hc (hiff.mp ha))⟩
  · exact ⟨_, Deserialize_u64_reject b (not_accepts_of_none b h).1⟩

/-- Witness of C7: `{0x81, 0x00}` is accepted with count 2; a ten-octet input
led by `0x80` is rejected; a buffer without terminating octet is rejected. -/
theorem C7_unsigned_acceptance_witness :
    (∃ v, Deserialize_u64 [0x81, 0x00] = .ok (1 + 1, v)) ∧
    (∃ v, Deserialize_u64 [0x80, 0xff, 0xff, 0xff, 0xff, 0xff, 0xff, 0xff, 0xff, 0x7f]
      = .ok (0, v)) ∧
    (∃ v, Deserialize_u64 [0x81, 0xff] = .ok (0, v)) :=
  ⟨((C7_unsigned_acceptance [0x81, 0x00]).1 1 0x00 (by decide) (by decide)
      (by intro i hi y hy; interval_cases i; simp at hy; subst hy; decide)).1 (by decide),
    ((C7_unsigned_acceptance [0x80, 0xff, 0xff, 0xff, 0xff, 0xff, 0xff, 0xff, 0xff, 0x7f]).1
      9 0x7f (by decide) (by decide)
      (by intro i hi y hy; interval_cases i <;> simp at hy <;> subst hy <;> decide)).2
      (by decide),
    (C7_unsigned_acceptance [0x81, 0xff]).2 (by decide)⟩

/-- C8 (the signed `Deserialize` succeeds exactly on well-terminated input):
let `j` be the least index of the buffer whose octet has bit 7 clear.  If
`j ≤ 9` and (`j < 9` or the first octet is `0x80` or `0xff`) the function
returns `j + 1`; if such a `j` exists but that condition fails, or if no octet
of the buffer has bit 7 clear (the empty buffer included), it returns 0. -/
theorem C8_signed_acceptance (b : List Nat) (v0 : Int) :
    (∀ j x, b[j]? = some x → x &&& 0x80 = 0 →
      (∀ i < j, ∀ y, b[i]? = some y → y &&& 0x80 ≠ 0) →
        (j ≤ 9 ∧ (j < 9 ∨ b[0]? = some 0x80 ∨ b[0]? = some 0xff) →
          ∃ v, Deserialize_i64 b v0 = .ok (j + 1, v)) ∧
        (¬ (j ≤ 9 ∧ (j < 9 ∨ b[0]? = some 0x80 ∨ b[0]? = some 0xff)) →
          ∃ v, Deserialize_i64 b v0 = .ok (0, v))) ∧
    ((∀ x ∈ b, x &&& 0x80 ≠ 0) → ∃ v, Deserialize_i64 b v0 = .ok (0, v)) := by
  refine ⟨fun j x hx hlast hprev => ?_, fun h => ?_⟩
  · obtain ⟨e, hiff⟩ := accepts_i64_of_least b j x hx hlast hprev
    refine ⟨fun hc => ?_, fun hc => ?_⟩
    · have := Deserialize_i64_accept b v0 (hiff.mpr hc)
      rw [e] at this
      exact ⟨_, this⟩
    · exact Deserialize_i64_reject b v0 (fun ha => hc (hiff.mp ha))
  · exact Deserialize_i64_reject b v0 (not_accepts_of_none b h).2

/-- Witness of C8: `{0x80, 0x40}` is accepted with count 2; a ten-octet input
led by `0x81` is rejected; the empty buffer is rejected. -/
theorem C8_signed_acceptance_witness :
    (∃ v, Deserialize_i64 [0x80, 0x40] 5 = .ok (1 + 1, v)) ∧
    (∃ v, Deserialize_i64 [0x81, 0xff, 0xff, 0xff, 0xff, 0xff, 0xff, 0xff, 0xff, 0x7f] 5
      = .ok (0, v)) ∧
    (∃ v, Deserialize_i64 [] 5 = .ok (0, v)) :=
  ⟨((C8_signed_acceptance [0x80, 0x40] 5).1 1 0x40 (by decide) (by decide)
      (by intro i hi y hy; interval_cases i; simp at hy; subst hy; decide)).1 (by decide),
    ((C8_signed_acceptance [0x81, 0xff, 0xff, 0xff, 0xff, 0xff, 0xff, 0xff, 0xff, 0x7f] 5).1
      9 0x7f (by decide) (by decide)
      (by intro i hi y hy; interval_cases i <;> simp at hy <;> subst hy <;> decide)).2
      (by decide),
    (C8_signed_acceptance [] 5).2 (by decide)⟩

/-- C3 (unsigned minimality): if the unsigned `Deserialize` accepts an octet
sequence with count `k` and value `v`, the unsigned `Serialize` of `v` into any
buffer large enough for it returns a non-zero count `n ≤ k`. -/
theorem C3_unsigned_minimality (b : List Nat) (k v : Nat)
    (h : Deserialize_u64 b = .ok (k, v)) (hk : k ≠ 0)
    (buffer : List Nat) (hbuf : VarUintSize v ≤ buffer.length) :
    ∃ n out, Serialize_u64 buffer v = .ok (n, out) ∧ n ≠ 0 ∧ n ≤ k := by
  obtain ⟨ha, hkj, hv⟩ := Deserialize_u64_inv b k v h hk
  obtain ⟨out, e, _⟩ := Serialize_u64_spec buffer v hbuf
  refine ⟨_, out, e, Nat.ne_of_gt (VarUintSize_pos v), ?_⟩
  have hv64 : v < 2 ^ 64 := by rw [hv]; exact Nat.mod_lt _ (by norm_num)
  by_cases h10 : k = 10
  · rw [h10]; exact VarUintSize_le v
  · apply VarUintSize_le_of_lt v k hv64 (by omega)
    have hlen : (b.take k).length = k := by
      rw [List.length_take]
      have := ha.1
      omega
    have hlt := accumNat_lt (b.take k)
    rw [hlen] at hlt
    have : v ≤ accumNat 0 (b.take k) := by rw [hv]; exact Nat.mod_le _ _
    omega

/-- Witness of C3: `{0x81, 0x00}` decodes to 0x80 with count 2, and 0x80
encodes in at most 2 octets. -/
theorem C3_unsigned_minimality_witness :
    Deserialize_u64 [0x81, 0x00] = .ok (2, 0x80) ∧
      ∃ n out, Serialize_u64 [0x22, 0x22, 0x22] 0x80 = .ok (n, out) ∧ n ≠ 0 ∧ n ≤ 2 :=
  ⟨by decide, C3_unsigned_minimality [0x81, 0x00] 2 0x80 (by decide) (by decide)
    [0x22, 0x22, 0x22] (by decide)⟩

/-- C4 (signed minimality): if the signed `Deserialize` accepts an octet
sequence with count `k` and value `v`, the signed `Serialize` of `v` into any
buffer large enough for it returns a non-zero count `n ≤ k`. -/
theorem C4_signed_minimality (b : List Nat) (v0 : Int) (k : Nat) (v : Int)
    (h : Deserialize_i64 b v0 = .ok (k, v)) (hk : k ≠ 0)
    (buffer : List Nat) (hbuf : VarIntSize v ≤ buffer.length) :
    ∃ n out, Serialize_i64 buffer v = .ok (n, out) ∧ n ≠ 0 ∧ n ≤ k := by
  obtain ⟨ha, hkj, hv⟩ := Deserialize_i64_inv b v0 k v h hk
  obtain ⟨out, e, _⟩ := Serialize_i64_spec buffer v hbuf
  refine ⟨_, out, e, Nat.ne_of_gt (VarIntSize_pos v), ?_⟩
  by_cases h10 : k = 10
  · rw [h10]; exact VarIntSize_le v
  · have hk9 : k ≤ 9 := by have := ha.2.1; omega
    have hr := accumInt_range b k (by omega) (by have := ha.1; omega)
    have hp : 64 * 128 ^ (k - 1) ≤ 64 * 128 ^ 8 :=
      Nat.mul_le_mul_left 64 (Nat.pow_le_pow_right (by norm_num) (by omega))
    have hp' : ((64 * 128 ^ (k - 1) : Nat) : Int) ≤ 2 ^ 62 := by
      have : (64 * 128 ^ 8 : Nat) = 2 ^ 62 := by norm_num
      omega
    have hw : v = accumInt (signInit b) (b.take k) := by
      rw [hv]
      exact wrapI64_of_range _ (by omega) (by omega)
    rw [hw]
    exact VarIntSize_le_of_lt _ k (by omega) (by omega) (by omega)
      (magnitude_lt_of_range _ _ hr.1 hr.2)

/-- Witness of C4: `{0x80, 0x40}` decodes to 64 with count 2, and 64 encodes in
at most 2 octets. -/
theorem C4_signed_minimality_witness :
    Deserialize_i64 [0x80, 0x40] 5 = .ok (2, 64) ∧
      ∃ n out, Serialize_i64 [0x22, 0x22, 0x22] 64 = .ok (n, out) ∧ n ≠ 0 ∧ n ≤ 2 :=
  ⟨by decide, C4_signed_minimality [0x80, 0x40] 5 2 64 (by decide) (by decide)
    [0x22, 0x22, 0x22] (by decide)⟩

/-- C1 (unsigned round trip): for every unsigned 64-bit value `v` and every
buffer on which `Serialize(buffer, v)` succeeds with count `n ≠ 0`, the
unsigned `Deserialize` applied to the resulting buffer (whatever the trailing
octets) returns the same `n` and yields exactly `v`. -/
theorem C1_unsigned_round_trip (buffer : List Nat) (v n : Nat) (out : List Nat)
    (hv : v < 2 ^ 64) (h : Serialize_u64 buffer v = .ok (n, out)) (hn : n ≠ 0) :
    Deserialize_u64 out = .ok (n, v) := by
  obtain ⟨hsize, _, _, hp⟩ := Serialize_u64_inv buffer v n out h hn
  have hpos : 0 < n := Nat.pos_of_ne_zero hn
  have hn10 : n ≤ 10 := by rw [hsize]; exact VarUintSize_le v
  have hfr : ∀ j < n, ∃ d, d < 128 ∧ out[j]? = some (framed n j d) := by
    intro j hj
    exact ⟨_, Nat.mod_lt _ (by norm_num), by rw [hp j, if_pos hj]⟩
  obtain ⟨hidx, hlt⟩ := findIdx_of_framed out n hpos hfr
  have hacc : accepts_u64 out := by
    refine ⟨by rw [hidx]; exact hlt, by rw [hidx]; omega, ?_⟩
    rw [hidx]
    by_cases h10 : n = 10
    · right
      have h63 := VarUintSize_ten v hv (by rw [← hsize]; exact h10)
      have hd : v / 128 ^ 9 % 128 = 1 := by
        have : (128 : Nat) ^ 9 = 2 ^ 63 := by norm_num
        rw [this]
        omega
      rw [hp 0, if_pos hpos, h10]
      show some (framed 10 0 (v / 128 ^ 9 % 128)) = some 129
      rw [hd]
      rfl
    · left; omega
  have hdig : ∀ j < n, ∃ x, out[j]? = some x ∧ x % 128 = v / 128 ^ (n - 1 - j) % 128 := by
    intro j hj
    refine ⟨_, by rw [hp j, if_pos hj], framed_mod _ _ _ (Nat.mod_lt _ (by norm_num))⟩
  have hval := accumNat_digits out n v hdig n (Nat.le_refl n)
  have hzero : v / 128 ^ n = 0 := by
    rw [hsize]
    exact Nat.div_eq_of_lt (VarUintSize_bound v hv)
  rw [hzero, Nat.sub_self, Nat.pow_zero, Nat.div_one] at hval
  rw [Deserialize_u64_accept out hacc, hidx, Nat.sub_add_cancel hpos,
    accum_u64_eq _ 0 (by norm_num), hval, Nat.mod_eq_of_lt hv]

/-- Witness of C1: 0x80 encoded into a three-octet buffer and decoded again. -/
theorem C1_unsigned_round_trip_witness :
    Serialize_u64 [0x22, 0x22, 0x22] 0x80 = .ok (2, [0x81, 0x00, 0x22]) ∧
      Deserialize_u64 [0x81, 0x00, 0x22] = .ok (2, 0x80) :=
  ⟨by decide, C1_unsigned_round_trip [0x22, 0x22, 0x22] 0x80 2 [0x81, 0x00, 0x22]
    (by decide) (by decide) (by decide)⟩

/-- C2 (signed round trip): for every signed 64-bit value `v` (from INT64_MIN
to INT64_MAX) and every buffer on which the signed `Serialize(buffer, v)`
succeeds with count `n ≠ 0`, the signed `Deserialize` applied to the resulting
buffer returns the same `n` and yields exactly `v`. -/
theorem C2_signed_round_trip (buffer : List Nat) (v : Int) (n : Nat) (out : List Nat)
    (v0 : Int) (hlo : -2 ^ 63 ≤ v) (hhi : v < 2 ^ 63)
    (h : Serialize_i64 buffer v = .ok (n, out)) (hn : n ≠ 0) :
    Deserialize_i64 out v0 = .ok (n, v) := by
  obtain ⟨hsize, _, _, hp⟩ := Serialize_i64_inv buffer v n out h hn
  have hpos : 0 < n := Nat.pos_of_ne_zero hn
  have hn10 : n ≤ 10 := by rw [hsize]; exact VarIntSize_le v
  have hdlt : ∀ z : Int, (z % 128).toNat < 128 := by intro z; omega
  have hfr : ∀ j < n, ∃ d, d < 128 ∧ out[j]? = some (framed n j d) := by
    intro j hj
    exact ⟨_, hdlt _, by rw [hp j, if_pos hj]⟩
  obtain ⟨hidx, hlt⟩ := findIdx_of_framed out n hpos hfr
  have hacc : accepts_i64 out := by
    refine ⟨by rw [hidx]; exact hlt, by rw [hidx]; omega, ?_⟩
    rw [hidx]
    by_cases h10 : n = 10
    · right
      have h0 := hp 0
      rw [if_pos hpos, h10] at h0
      have e9 : (10 - 1 - 0 : Nat) = 9 := rfl
      rw [e9] at h0
      have hp9 : (128 : Int) ^ 9 = 2 ^ 63 := by norm_num
      rw [hp9] at h0
      by_cases hneg : v < 0
      · right
        have : (v / 2 ^ 63 % 128).toNat = 127 := by omega
        rw [h0, this]; rfl
      · left
        have : (v / 2 ^ 63 % 128).toNat = 0 := by omega
        rw [h0, this]; rfl
    · left; omega
  have hdig : ∀ j < n, ∃ x, out[j]? = some x ∧
      ((x % 128 : Nat) : Int) = v / 128 ^ (n - 1 - j) % 128 := by
    intro j hj
    refine ⟨_, by rw [hp j, if_pos hj], ?_⟩
    rw [framed_mod _ _ _ (hdlt _)]
    omega
  have hval := accumInt_digits out n v hdig n (Nat.le_refl n)
  rw [Nat.sub_self, pow_zero, Int.ediv_one] at hval
  have hbound := VarIntSize_bound v hlo hhi
  rw [← hsize] at hbound
  obtain ⟨hb1, hb2⟩ := magnitude_range v _ hbound
  obtain ⟨htop, hsign⟩ := top_group v (128 ^ (n - 1)) (Nat.pow_pos (by norm_num)) hb1 hb2
  have hpow : (128 : Int) * ((128 ^ (n - 1) : Nat) : Int) = 128 ^ n := by
    push_cast
    rw [← pow_succ']
    congr 1
    omega
  rw [hpow] at hsign
  have hinit : signInit out = v / 128 ^ n := by
    have h0 := hp 0
    rw [if_pos hpos, Nat.sub_zero] at h0
    unfold signInit
    rw [List.getD_eq_getElem?_getD, h0, Option.getD_some, hsign]
    push_cast at htop
    by_cases hneg : v < 0
    · rw [if_pos hneg, if_pos]
      rw [bit6_iff, framed_mod _ _ _ (hdlt _)]
      exact htop.mpr hneg
    · rw [if_neg hneg, if_neg]
      rw [bit6_iff, framed_mod _ _ _ (hdlt _)]
      exact fun hc => hneg (htop.mp hc)
  rw [Deserialize_i64_accept out v0 hacc, hidx, Nat.sub_add_cancel hpos,
    signInit_wrap out, accum_i64_eq, hinit, hval, wrapI64_of_range v hlo hhi]

/-- Witness of C2: -1 encoded into a two-octet buffer and decoded again. -/
theorem C2_signed_round_trip_witness :
    Serialize_i64 [0x22, 0x22] (-1) = .ok (1, [0x7f, 0x22]) ∧
      Deserialize_i64 [0x7f, 0x22] 5 = .ok (1, -1) :=
  ⟨by decide, C2_signed_round_trip [0x22, 0x22] (-1) 1 [0x7f, 0x22] 5
    (by decide) (by decide) (by decide) (by decide)⟩

/-- C11 (most-significant-group-first payload): whenever `Serialize` succeeds
with count `n`, the low 7 bits of the octet at index `i < n` are
`(v >> 7 * (n - 1 - i)) & 0x7f`, with the logical shift for the unsigned
encoder and the arithmetic shift of the two's complement value for the signed
encoder. -/
theorem C11_payload_groups :
    (∀ (buffer : List Nat) (v n : Nat) (out : List Nat),
      Serialize_u64 buffer v = .ok (n, out) → n ≠ 0 → ∀ i, i < n →
        ∃ x, out[i]? = some x ∧ x &&& 0x7f = (v >>> (7 * (n - 1 - i))) &&& 0x7f) ∧
    (∀ (buffer : List Nat) (v : Int) (n : Nat) (out : List Nat),
      Serialize_i64 buffer v = .ok (n, out) → n ≠ 0 → ∀ i, i < n →
        ∃ x, out[i]? = some x ∧
          ((x &&& 0x7f : Nat) : Int) = and_i64 (sar_i64 v (7 * (n - 1 - i))) 0x7f) := by
  refine ⟨?_, ?_⟩
  · intro buffer v n out h hn i hi
    obtain ⟨_, _, _, hp⟩ := Serialize_u64_inv buffer v n out h hn
    have e := hp i
    rw [if_pos hi] at e
    refine ⟨_, e, ?_⟩
    rw [and_0x7f, and_0x7f, framed_mod _ _ _ (Nat.mod_lt _ (by norm_num)), shr_eq]
  · intro buffer v n out h hn i hi
    obtain ⟨_, _, _, hp⟩ := Serialize_i64_inv buffer v n out h hn
    have e := hp i
    rw [if_pos hi] at e
    refine ⟨_, e, ?_⟩
    have hd : (v / 128 ^ (n - 1 - i) % 128).toNat < 128 := by omega
    rw [and_0x7f, framed_mod _ _ _ hd, and_i64_0x7f_eq, sar_i64_eq]
    omega

/-- Witness of C11: the groups of 0x80 (unsigned, octets `{0x81, 0x00}`) and of
-129 (signed, octets `{0xfe, 0x7f}`). -/
theorem C11_payload_groups_witness :
    (∃ x, [0x81, 0x00, 0x22][0]? = some x ∧ x &&& 0x7f = (0x80 >>> (7 * (2 - 1 - 0))) &&& 0x7f) ∧
    (∃ x, [0xfe, 0x7f, 0x22][0]? = some x ∧
      ((x &&& 0x7f : Nat) : Int) = and_i64 (sar_i64 (-129) (7 * (2 - 1 - 0))) 0x7f) :=
  ⟨C11_payload_groups.1 [0x22, 0x22, 0x22] 0x80 2 [0x81, 0x00, 0x22] (by decide) (by decide)
      0 (by decide),
    C11_payload_groups.2 [0x22, 0x22, 0x22] (-129) 2 [0xfe, 0x7f, 0x22] (by decide) (by decide)
      0 (by decide)⟩

/-- C12 (unsigned octet count): for every unsigned 64-bit `v` and buffer of
length at least 10, `Serialize` returns `n = p / 7 + 1` with `p` the index of
the highest set bit of `v` (`p = 0` for `v = 0`); `1 ≤ n ≤ 10`; when
`v < 2^63`, `n` is the least positive integer with `v < 2^(7n)`; `n = 10`
exactly when `v ≥ 2^63`; and `n = 1` exactly when `v < 2^7`. -/
theorem C12_unsigned_octet_count (buffer : List Nat) (v : Nat) (hv : v < 2 ^ 64)
    (hlen : 10 ≤ buffer.length) :
    ∃ n out, Serialize_u64 buffer v = .ok (n, out) ∧
      (∃ p, highestSetBit v p ∧ n = p / 7 + 1) ∧
      (∀ p, highestSetBit v p → n = p / 7 + 1) ∧
      1 ≤ n ∧ n ≤ 10 ∧
      (v < 2 ^ 63 → v < 2 ^ (7 * n) ∧ ∀ m, 0 < m → v < 2 ^ (7 * m) → n ≤ m) ∧
      (n = 10 ↔ 2 ^ 63 ≤ v) ∧
      (n = 1 ↔ v < 2 ^ 7) := by
  have hle := VarUintSize_le v
  obtain ⟨out, e, _⟩ := Serialize_u64_spec buffer v (by omega)
  have hb := VarUintSize_bound v hv
  rw [pow128] at hb
  have hmin : ∀ m, 0 < m → v < 2 ^ (7 * m) → VarUintSize v ≤ m := by
    intro m hm h
    rw [← pow128] at h
    exact VarUintSize_le_of_lt v m hv hm h
  refine ⟨VarUintSize v, out, e, ⟨FindMSb_u64 v, FindMSb_u64_highest v hv, rfl⟩, ?_,
    VarUintSize_pos v, hle, fun _ => ⟨hb, hmin⟩, ⟨VarUintSize_ten v hv, fun h => ?_⟩,
    ⟨fun h => ?_, fun h => ?_⟩⟩
  · intro p hp
    unfold VarUintSize
    rw [FindMSb_u64_of_highest v p hv hp]
  · by_contra hc
    have h9 : VarUintSize v ≤ 9 := by omega
    have : 2 ^ (7 * VarUintSize v) ≤ 2 ^ 63 := Nat.pow_le_pow_right (by norm_num) (by omega)
    omega
  · rw [h] at hb; exact hb
  · have := hmin 1 (by norm_num) h
    have := VarUintSize_pos v
    omega

/-- Witness of C12 at `v = 0x80` (highest set bit 7, two octets). -/
theorem C12_unsigned_octet_count_witness :
    (0x80 < 2 ^ 64 ∧ 10 ≤ (List.replicate 10 0x22).length) ∧
    ∃ n out, Serialize_u64 (List.replicate 10 0x22) 0x80 = .ok (n, out) ∧
      (∃ p, highestSetBit 0x80 p ∧ n = p / 7 + 1) ∧
      (∀ p, highestSetBit 0x80 p → n = p / 7 + 1) ∧
      1 ≤ n ∧ n ≤ 10 ∧
      (0x80 < 2 ^ 63 → 0x80 < 2 ^ (7 * n) ∧ ∀ m, 0 < m → 0x80 < 2 ^ (7 * m) → n ≤ m) ∧
      (n = 10 ↔ 2 ^ 63 ≤ 0x80) ∧
      (n = 1 ↔ 0x80 < 2 ^ 7) :=
  ⟨by decide, C12_unsigned_octet_count (List.replicate 10 0x22) 0x80 (by decide) (by decide)⟩

/-- C13 (signed octet count): for every signed 64-bit `v` and buffer of length
at least 10, the signed `Serialize` returns `n = (p + 1) / 7 + 1` with `p` the
index of the highest set bit of `v` when `v ≥ 0` and of the bitwise complement
of `v` when `v < 0` (`p = 0` when there is none); `1 ≤ n ≤ 10`; and `n` is the
least positive integer with `-2^(7n-1) ≤ v < 2^(7n-1)`. -/
theorem C13_signed_octet_count (buffer : List Nat) (v : Int)
    (hlo : -2 ^ 63 ≤ v) (hhi : v < 2 ^ 63) (hlen : 10 ≤ buffer.length) :
    ∃ n out, Serialize_i64 buffer v = .ok (n, out) ∧
      (∃ p, highestSetBit (if v ≥ 0 then v.toNat else (~~~v).toNat) p ∧ n = (p + 1) / 7 + 1) ∧
      (∀ p, highestSetBit (if v ≥ 0 then v.toNat else (~~~v).toNat) p → n = (p + 1) / 7 + 1) ∧
      1 ≤ n ∧ n ≤ 10 ∧
      (-2 ^ (7 * n - 1) ≤ v ∧ v < 2 ^ (7 * n - 1)) ∧
      (∀ m, 0 < m → -2 ^ (7 * m - 1) ≤ v → v < 2 ^ (7 * m - 1) → n ≤ m) := by
  have hle := VarIntSize_le v
  obtain ⟨out, e, _⟩ := Serialize_i64_spec buffer v (by omega)
  have hm64 : magnitude v < 2 ^ 64 := by have := magnitude_lt v hlo hhi; omega
  have hb := magnitude_range v _ (VarIntSize_bound v hlo hhi)
  rw [half_pow_cast _ (VarIntSize_pos v)] at hb
  rw [← magnitude_eq]
  refine ⟨VarIntSize v, out, e, ⟨FindMSb_u64 (magnitude v), FindMSb_u64_highest _ hm64, ?_⟩, ?_,
    VarIntSize_pos v, hle, hb, ?_⟩
  · unfold VarIntSize
    rw [FindMSb_i64_eq v hlo hhi]
  · intro p hp
    unfold VarIntSize
    rw [FindMSb_i64_eq v hlo hhi, FindMSb_u64_of_highest _ p hm64 hp]
  · intro m hm h1 h2
    apply VarIntSize_le_of_lt v m hlo hhi hm
    apply magnitude_lt_of_range
    · rw [half_pow_cast m hm]; exact h1
    · rw [half_pow_cast m hm]; exact h2

/-- Witness of C13 at `v = -65` (complement 64, highest set bit 6, two
octets). -/
theorem C13_signed_octet_count_witness :
    (-(2 : Int) ^ 63 ≤ -65 ∧ (-65 : Int) < 2 ^ 63 ∧ 10 ≤ (List.replicate 10 0x22).length) ∧
    ∃ n out, Serialize_i64 (List.replicate 10 0x22) (-65) = .ok (n, out) ∧
      (∃ p, highestSetBit (if (-65 : Int) ≥ 0 then (-65 : Int).toNat else (~~~(-65 : Int)).toNat) p
        ∧ n = (p + 1) / 7 + 1) ∧
      (∀ p, highestSetBit (if (-65 : Int) ≥ 0 then (-65 : Int).toNat else (~~~(-65 : Int)).toNat) p
        → n = (p + 1) / 7 + 1) ∧
      1 ≤ n ∧ n ≤ 10 ∧
      (-2 ^ (7 * n - 1) ≤ (-65 : Int) ∧ (-65 : Int) < 2 ^ (7 * n - 1)) ∧
      (∀ m, 0 < m → -2 ^ (7 * m - 1) ≤ (-65 : Int) → (-65 : Int) < 2 ^ (7 * m - 1) → n ≤ m) :=
  ⟨⟨by norm_num, by norm_num, by decide⟩,
    C13_signed_octet_count (List.replicate 10 0x22) (-65) (by norm_num) (by norm_num)
      (by decide)⟩

/-- C14 (overlong rejection): for every buffer of length at least 10 whose
first ten octets all have bit 7 set, the unsigned and the signed `Deserialize`
both return 0, whatever octets follow; in particular for the 11-octet input
`{0x80, 0xff, 0xff, 0xff, 0xff, 0xff, 0xff, 0xff, 0xff, 0xff, 0x00}`. -/
theorem C14_overlong_rejection :
    (∀ (b : List Nat) (v0 : Int), 10 ≤ b.length →
      (∀ i < 10, ∀ x, b[i]? = some x → x &&& 0x80 ≠ 0) →
        (∃ v, Deserialize_u64 b = .ok (0, v)) ∧ (∃ v, Deserialize_i64 b v0 = .ok (0, v))) ∧
    (∃ v, Deserialize_u64 [0x80, 0xff, 0xff, 0xff, 0xff, 0xff, 0xff, 0xff, 0xff, 0xff, 0x00]
      = .ok (0, v)) ∧
    (∀ v0 : Int, ∃ v,
      Deserialize_i64 [0x80, 0xff, 0xff, 0xff, 0xff, 0xff, 0xff, 0xff, 0xff, 0xff, 0x00] v0
        = .ok (0, v)) := by
  have main : ∀ (b : List Nat) (v0 : Int),
      (∀ i < 10, ∀ x, b[i]? = some x → x &&& 0x80 ≠ 0) →
        (∃ v, Deserialize_u64 b = .ok (0, v)) ∧ (∃ v, Deserialize_i64 b v0 = .ok (0, v)) := by
    intro b v0 h
    obtain ⟨hu, hi⟩ := not_accepts_of_ten b h
    exact ⟨⟨_, Deserialize_u64_reject b hu⟩, Deserialize_i64_reject b v0 hi⟩
  have hex : ∀ i < 10, ∀ x,
      [0x80, 0xff, 0xff, 0xff, 0xff, 0xff, 0xff, 0xff, 0xff, 0xff, 0x00][i]? = some x →
        x &&& 0x80 ≠ 0 := by
    intro i hi x hx
    interval_cases i <;> simp at hx <;> subst hx <;> decide
  exact ⟨fun b v0 _ h => main b v0 h, (main _ 0 hex).1, fun v0 => (main _ v0 hex).2⟩

/-- Witness of C14: twelve octets `0xff`. -/
theorem C14_overlong_rejection_witness :
    (∃ v, Deserialize_u64 (List.replicate 12 0xff) = .ok (0, v)) ∧
      (∃ v, Deserialize_i64 (List.replicate 12 0xff) 5 = .ok (0, v)) :=
  C14_overlong_rejection.1 (List.replicate 12 0xff) 5 (by decide)
    (by intro i hi x hx; interval_cases i <;> simp at hx <;> subst hx <;> decide)

/-- C15 (truncated-input rejection): for every buffer, of any length including
the empty buffer, in which every octet has bit 7 set, the unsigned and the
signed `Deserialize` both return 0. -/
theorem C15_truncated_rejection (b : List Nat) (v0 : Int)
    (h : ∀ x ∈ b, x &&& 0x80 ≠ 0) :
    (∃ v, Deserialize_u64 b = .ok (0, v)) ∧ (∃ v, Deserialize_i64 b v0 = .ok (0, v)) := by
  obtain ⟨hu, hi⟩ := not_accepts_of_none b h
  exact ⟨⟨_, Deserialize_u64_reject b hu⟩, Deserialize_i64_reject b v0 hi⟩

/-- Witness of C15: the truncated input `{0x81, 0xff}`. -/
theorem C15_truncated_rejection_witness :
    (∃ v, Deserialize_u64 [0x81, 0xff] = .ok (0, v)) ∧
      (∃ v, Deserialize_i64 [0x81, 0xff] 5 = .ok (0, v)) :=
  C15_truncated_rejection [0x81, 0xff] 5 (by decide)

/-- C16 (sign indicator): for every buffer on which the signed `Deserialize`
succeeds, with any accepted count from 1 to 10, the decoded value is negative
if and only if bit 6 (0x40) of the first octet is set. -/
theorem C16_sign_indicator (b : List Nat) (v0 : Int) (k : Nat) (v : Int)
    (h : Deserialize_i64 b v0 = .ok (k, v)) (hk : k ≠ 0) :
    ∃ x, b[0]? = some x ∧ (v < 0 ↔ x &&& 0x40 ≠ 0) := by
  obtain ⟨ha, hkj, hv⟩ := Deserialize_i64_inv b v0 k v h hk
  have hfit := accumInt_fits b ha
  rw [← hkj] at hfit
  rw [wrapI64_of_range _ hfit.1 hfit.2] at hv
  have hlen := ha.1
  cases b with
  | nil => simp at hlen
  | cons x xs =>
    refine ⟨x, by simp, ?_⟩
    rw [hv, hkj, bit6_iff]
    exact accumInt_sign x xs _ (by simp at hlen; omega)

/-- Witness of C16: `{0x7f}` decodes to -1 and bit 6 of 0x7f is set. -/
theorem C16_sign_indicator_witness :
    Deserialize_i64 [0x7f] 5 = .ok (1, -1) ∧
      ∃ x, [0x7f][0]? = some x ∧ ((-1 : Int) < 0 ↔ x &&& 0x40 ≠ 0) :=
  ⟨by decide, C16_sign_indicator [0x7f] 5 1 (-1) (by decide) (by decide)⟩

/-- C17 (legal leading octet at maximum length, encoder side): for every
unsigned 64-bit `v` for which `Serialize` returns 10 the first octet written is
`0x81`; for every signed 64-bit `v` for which the signed `Serialize` returns 10
the first octet written is `0x80` when `v ≥ 0` and `0xff` when `v < 0`. -/
theorem C17_leading_octet_at_max :
    (∀ (buffer : List Nat) (v : Nat) (out : List Nat), v < 2 ^ 64 →
      Serialize_u64 buffer v = .ok (10, out) → out[0]? = some 0x81) ∧
    (∀ (buffer : List Nat) (v : Int) (out : List Nat), -2 ^ 63 ≤ v → v < 2 ^ 63 →
      Serialize_i64 buffer v = .ok (10, out) →
        (0 ≤ v → out[0]? = some 0x80) ∧ (v < 0 → out[0]? = some 0xff)) := by
  refine ⟨?_, ?_⟩
  · intro buffer v out hv h
    obtain ⟨hsize, _, _, hp⟩ := Serialize_u64_inv buffer v 10 out h (by decide)
    have h63 := VarUintSize_ten v hv hsize.symm
    have hd : v / 128 ^ 9 % 128 = 1 := by
      have : (128 : Nat) ^ 9 = 2 ^ 63 := by norm_num
      rw [this]
      omega
    have h0 := hp 0
    rw [if_pos (by decide)] at h0
    rw [h0]
    show some (framed 10 0 (v / 128 ^ 9 % 128)) = some 129
    rw [hd]
    rfl
  · intro buffer v out hlo hhi h
    obtain ⟨_, _, _, hp⟩ := Serialize_i64_inv buffer v 10 out h (by decide)
    have h0 := hp 0
    rw [if_pos (by decide)] at h0
    have e9 : (10 - 1 - 0 : Nat) = 9 := rfl
    have hp9 : (128 : Int) ^ 9 = 2 ^ 63 := by norm_num
    rw [e9, hp9] at h0
    refine ⟨fun hpos => ?_, fun hneg => ?_⟩
    · have : (v / 2 ^ 63 % 128).toNat = 0 := by omega
      rw [h0, this]; rfl
    · have : (v / 2 ^ 63 % 128).toNat = 127 := by omega
      rw [h0, this]; rfl

/-- Witness of C17: the ten-octet encodings of 2^64 - 1 (unsigned) and of
INT64_MIN (signed). -/
theorem C17_leading_octet_at_max_witness :
    [0x81, 0xff, 0xff, 0xff, 0xff, 0xff, 0xff, 0xff, 0xff, 0x7f][0]? = some 0x81 ∧
    ((0 ≤ (-9223372036854775808 : Int) →
        [0xff, 0x80, 0x80, 0x80, 0x80, 0x80, 0x80, 0x80, 0x80, 0x00][0]? = some 0x80) ∧
      ((-9223372036854775808 : Int) < 0 →
        [0xff, 0x80, 0x80, 0x80, 0x80, 0x80, 0x80, 0x80, 0x80, 0x00][0]? = some 0xff)) :=
  ⟨C17_leading_octet_at_max.1 (List.replicate 10 0x22) 0xFFFFFFFFFFFFFFFF
      [0x81, 0xff, 0xff, 0xff, 0xff, 0xff, 0xff, 0xff, 0xff, 0x7f] (by decide) (by decide),
    C17_leading_octet_at_max.2 (List.replicate 10 0x22) (-9223372036854775808)
      [0xff, 0x80, 0x80, 0x80, 0x80, 0x80, 0x80, 0x80, 0x80, 0x00] (by norm_num) (by norm_num)
      (by decide)⟩

/-- C18 (unsigned canonical form at maximum length): for every buffer of octets
on which the unsigned `Deserialize` succeeds with count 10 and value `v`, the
unsigned `Serialize` of `v` (into any buffer of at least 10 octets) returns 10
and writes exactly those same 10 octets. -/
theorem C18_unsigned_canonical_at_max (b : List Nat) (hb : ∀ x ∈ b, x < 256) (v : Nat)
    (h : Deserialize_u64 b = .ok (10, v)) (buffer : List Nat) (hlen : 10 ≤ buffer.length) :
    ∃ out, Serialize_u64 buffer v = .ok (10, out) ∧ out.take 10 = b.take 10 := by
  obtain ⟨ha, hkj, hv, hv64⟩ := Deserialize_u64_exact b 10 v h (by decide)
  have h63 := (accumNat_fits b ha).2 (by omega)
  rw [← hkj, ← hv] at h63
  have hsize : VarUintSize v = 10 := by
    have hle := VarUintSize_le v
    by_contra hc
    have hb9 := VarUintSize_bound v hv64
    have : 128 ^ VarUintSize v ≤ 128 ^ 9 := Nat.pow_le_pow_right (by norm_num) (by omega)
    have hP : (128 : Nat) ^ 9 = 2 ^ 63 := by norm_num
    omega
  exact reencode_u64 b hb 10 v h (by decide) hsize buffer hlen

/-- Witness of C18: the ten-octet encoding of 2^64 - 1, followed by one more
octet. -/
theorem C18_unsigned_canonical_at_max_witness :
    Deserialize_u64 [0x81, 0xff, 0xff, 0xff, 0xff, 0xff, 0xff, 0xff, 0xff, 0x7f, 0x22]
        = .ok (10, 0xFFFFFFFFFFFFFFFF) ∧
      ∃ out, Serialize_u64 (List.replicate 10 0) 0xFFFFFFFFFFFFFFFF = .ok (10, out) ∧
        out.take 10
          = [0x81, 0xff, 0xff, 0xff, 0xff, 0xff, 0xff, 0xff, 0xff, 0x7f, 0x22].take 10 :=
  ⟨by decide, C18_unsigned_canonical_at_max
    [0x81, 0xff, 0xff, 0xff, 0xff, 0xff, 0xff, 0xff, 0xff, 0x7f, 0x22] (by decide)
    0xFFFFFFFFFFFFFFFF (by decide) (List.replicate 10 0) (by decide)⟩

/-- C19, counterexample: the signed `Deserialize` accepts ten octets
`{0x80, 0x80, 0x80, 0x80, 0x80, 0x80, 0x80, 0x80, 0x80, 0x00}` with count 10
and value 0, while the signed `Serialize` of 0 returns 1 and writes `{0x00}`,
not those ten octets. -/
theorem C19_counterexample :
    Deserialize_i64 [0x80, 0x80, 0x80, 0x80, 0x80, 0x80, 0x80, 0x80, 0x80, 0x00] 0
        = .ok (10, 0) ∧
      Serialize_i64 [0x22, 0x22, 0x22, 0x22, 0x22, 0x22, 0x22, 0x22, 0x22, 0x22] 0
        = .ok (1, [0x00, 0x22, 0x22, 0x22, 0x22, 0x22, 0x22, 0x22, 0x22, 0x22]) ∧
      ¬ ∃ out, Serialize_i64 [0x22, 0x22, 0x22, 0x22, 0x22, 0x22, 0x22, 0x22, 0x22, 0x22] 0
        = .ok (10, out) := by
  have hs : Serialize_i64 [0x22, 0x22, 0x22, 0x22, 0x22, 0x22, 0x22, 0x22, 0x22, 0x22] 0
      = .ok (1, [0x00, 0x22, 0x22, 0x22, 0x22, 0x22, 0x22, 0x22, 0x22, 0x22]) := by decide
  refine ⟨?_, hs, ?_⟩
  · set_option maxRecDepth 4000 in decide
  · rintro ⟨out, h⟩
    rw [hs] at h
    injection h with h
    injection h with h1 _
    exact absurd h1 (by decide)

/-- C19, as amended (signed canonical form at maximum length): for every buffer
of octets on which the signed `Deserialize` succeeds with count 10 and value
`v`, if `v ≥ 2^62` or `v < -2^62` the signed `Serialize` of `v` (into any buffer
of at least 10 octets) returns 10 and writes exactly those same 10 octets;
otherwise it returns a count below 10. -/
theorem C19_signed_canonical_at_max (b : List Nat) (hb : ∀ x ∈ b, x < 256) (v0 v : Int)
    (h : Deserialize_i64 b v0 = .ok (10, v)) (buffer : List Nat) (hlen : 10 ≤ buffer.length) :
    ((2 ^ 62 ≤ v ∨ v < -2 ^ 62) →
      ∃ out, Serialize_i64 buffer v = .ok (10, out) ∧ out.take 10 = b.take 10) ∧
    (¬ (2 ^ 62 ≤ v ∨ v < -2 ^ 62) →
      ∃ n out, Serialize_i64 buffer v = .ok (n, out) ∧ n ≠ 0 ∧ n < 10) := by
  obtain ⟨_, _, _, hlo, hhi⟩ := Deserialize_i64_exact b v0 10 v h (by decide)
  have hiff := VarIntSize_eq_ten v hlo hhi
  refine ⟨fun hv => ?_, fun hv => ?_⟩
  · exact reencode_i64 b hb v0 10 v h (by decide) (hiff.mpr hv) buffer hlen
  · have hle := VarIntSize_le v
    obtain ⟨out, e, _⟩ := Serialize_i64_spec buffer v (by omega)
    refine ⟨_, out, e, Nat.ne_of_gt (VarIntSize_pos v), ?_⟩
    have : VarIntSize v ≠ 10 := fun hc => hv (hiff.mp hc)
    omega

/-- Witness of C19 as amended: the ten-octet encoding of INT64_MIN is written
back, and the padded ten-octet form of 0 re-encodes shorter. -/
theorem C19_signed_canonical_at_max_witness :
    (∃ out, Serialize_i64 (List.replicate 10 0) (-9223372036854775808) = .ok (10, out) ∧
      out.take 10 = [0xff, 0x80, 0x80, 0x80, 0x80, 0x80, 0x80, 0x80, 0x80, 0x00].take 10) ∧
    (∃ n out, Serialize_i64 (List.replicate 10 0) 0 = .ok (n, out) ∧ n ≠ 0 ∧ n < 10) :=
  ⟨(C19_signed_canonical_at_max [0xff, 0x80, 0x80, 0x80, 0x80, 0x80, 0x80, 0x80, 0x80, 0x00]
      (by decide) 5 (-9223372036854775808)
      (by set_option maxRecDepth 4000 in decide) (List.replicate 10 0) (by decide)).1
      (by norm_num),
    (C19_signed_canonical_at_max [0x80, 0x80, 0x80, 0x80, 0x80, 0x80, 0x80, 0x80, 0x80, 0x00]
      (by decide) 5 0
      (by set_option maxRecDepth 4000 in decide) (List.replicate 10 0) (by decide)).2
      (by norm_num)⟩

/-- C20, counterexample: both decoders accept the padded sequence
`{0x80, 0x00}` with count 2 and value 0, while the matching `Serialize` of 0
returns 1. -/
theorem C20_counterexample :
    (Deserialize_u64 [0x80, 0x00] = .ok (2, 0) ∧
      Serialize_u64 [0x22, 0x22] 0 = .ok (1, [0x00, 0x22])) ∧
    (Deserialize_i64 [0x80, 0x00] 0 = .ok (2, 0) ∧
      Serialize_i64 [0x22, 0x22] 0 = .ok (1, [0x00, 0x22])) := by
  decide

/-- C20, as amended (encoding length of a decoded value): for each of the two
decoders and every octet sequence it accepts with count `k` and value `v`, the
matching `Serialize` returns for `v` a count `n ≤ k`; and `n = k` exactly when
the sequence does not start with a padding octet, that is when `k = 1`, or
(unsigned) the payload of the first octet is non-zero, or (signed) the payload
of the first octet is neither `0x00` before an octet with bit 6 clear nor
`0x7f` before an octet with bit 6 set. -/
theorem C20_encoding_length :
    (∀ (b : List Nat) (k v : Nat), Deserialize_u64 b = .ok (k, v) → k ≠ 0 →
      ∀ buffer : List Nat, 10 ≤ buffer.length →
        ∃ n out, Serialize_u64 buffer v = .ok (n, out) ∧ n ≠ 0 ∧ n ≤ k ∧
          (n = k ↔ k = 1 ∨ ∃ x, b[0]? = some x ∧ x &&& 0x7f ≠ 0)) ∧
    (∀ (b : List Nat) (v0 : Int) (k : Nat) (v : Int), Deserialize_i64 b v0 = .ok (k, v) →
      k ≠ 0 → ∀ buffer : List Nat, 10 ≤ buffer.length →
        ∃ n out, Serialize_i64 buffer v = .ok (n, out) ∧ n ≠ 0 ∧ n ≤ k ∧
          (n = k ↔ k = 1 ∨ ∃ x y, b[0]? = some x ∧ b[1]? = some y ∧
            ¬ (x &&& 0x7f = 0 ∧ y &&& 0x40 = 0) ∧
            ¬ (x &&& 0x7f = 0x7f ∧ y &&& 0x40 ≠ 0))) := by
  refine ⟨?_, ?_⟩
  · intro b k v h hk buffer hlen
    have hle := VarUintSize_le v
    obtain ⟨out, e, _⟩ := Serialize_u64_spec buffer v (by omega)
    exact ⟨_, out, e, Nat.ne_of_gt (VarUintSize_pos v), decoded_size_le_u64 b k v h hk,
      decoded_size_eq_u64 b k v h hk⟩
  · intro b v0 k v h hk buffer hlen
    have hle := VarIntSize_le v
    obtain ⟨out, e, _⟩ := Serialize_i64_spec buffer v (by omega)
    exact ⟨_, out, e, Nat.ne_of_gt (VarIntSize_pos v), decoded_size_le_i64 b v0 k v h hk,
      decoded_size_eq_i64 b v0 k v h hk⟩

/-- Witness of C20 as amended: `{0x81, 0x00}` (unsigned, value 0x80) and
`{0x80, 0x40}` (signed, value 64), both decoded with count 2. -/
theorem C20_encoding_length_witness :
    (∃ n out, Serialize_u64 (List.replicate 10 0x22) 0x80 = .ok (n, out) ∧ n ≠ 0 ∧ n ≤ 2 ∧
      (n = 2 ↔ 2 = 1 ∨ ∃ x, [0x81, 0x00][0]? = some x ∧ x &&& 0x7f ≠ 0)) ∧
    (∃ n out, Serialize_i64 (List.replicate 10 0x22) 64 = .ok (n, out) ∧ n ≠ 0 ∧ n ≤ 2 ∧
      (n = 2 ↔ 2 = 1 ∨ ∃ x y, [0x80, 0x40][0]? = some x ∧ [0x80, 0x40][1]? = some y ∧
        ¬ (x &&& 0x7f = 0 ∧ y &&& 0x40 = 0) ∧
        ¬ (x &&& 0x7f = 0x7f ∧ y &&& 0x40 ≠ 0))) :=
  ⟨C20_encoding_length.1 [0x81, 0x00] 2 0x80 (by decide) (by decide)
      (List.replicate 10 0x22) (by decide),
    C20_encoding_length.2 [0x80, 0x40] 5 2 64 (by decide) (by decide)
      (List.replicate 10 0x22) (by decide)⟩

/-- C21 (encoder frame): whenever the unsigned or the signed `Serialize`
succeeds with count `n`, the buffer keeps its length and every octet at an
index `≥ n` holds the value it held before the call. -/
theorem C21_encoder_frame :
    (∀ (buffer : List Nat) (value n : Nat) (out : List Nat),
      Serialize_u64 buffer value = .ok (n, out) → n ≠ 0 →
        out.length = buffer.length ∧ ∀ j, n ≤ j → out[j]? = buffer[j]?) ∧
    (∀ (buffer : List Nat) (value : Int) (n : Nat) (out : List Nat),
      Serialize_i64 buffer value = .ok (n, out) → n ≠ 0 →
        out.length = buffer.length ∧ ∀ j, n ≤ j → out[j]? = buffer[j]?) := by
  refine ⟨?_, ?_⟩
  · intro buffer value n out h hn
    obtain ⟨_, _, hl, hp⟩ := Serialize_u64_inv buffer value n out h hn
    exact ⟨hl, fun j hj => by rw [hp j, if_neg (by omega)]⟩
  · intro buffer value n out h hn
    obtain ⟨_, _, hl, hp⟩ := Serialize_i64_inv buffer value n out h hn
    exact ⟨hl, fun j hj => by rw [hp j, if_neg (by omega)]⟩

/-- Witness of C21: 0x80 (unsigned) and 64 (signed) written into a buffer of
three octets `0x22`; the third octet is untouched. -/
theorem C21_encoder_frame_witness :
    ([0x81, 0x00, 0x22].length = [0x22, 0x22, 0x22].length ∧
      ∀ j, 2 ≤ j → [0x81, 0x00, 0x22][j]? = [0x22, 0x22, 0x22][j]?) ∧
    ([0x80, 0x40, 0x22].length = [0x22, 0x22, 0x22].length ∧
      ∀ j, 2 ≤ j → [0x80, 0x40, 0x22][j]? = [0x22, 0x22, 0x22][j]?) :=
  ⟨C21_encoder_frame.1 [0x22, 0x22, 0x22] 0x80 2 [0x81, 0x00, 0x22] (by decide) (by decide),
    C21_encoder_frame.2 [0x22, 0x22, 0x22] 64 2 [0x80, 0x40, 0x22] (by decide) (by decide)⟩

/-- C26 (in-bounds access): for every buffer, of any length including the empty
one, and every value, each of the four operations returns normally: no read
`buffer[total_octets - 1]` or `buffer[0]` of the decoders and no write
`buffer[i - 1]` of the encoders falls outside the buffer, and no loop runs out
of fuel. -/
theorem C26_in_bounds (buffer : List Nat) :
    (∀ value : Nat, ∃ r, Serialize_u64 buffer value = .ok r) ∧
    (∃ r, Deserialize_u64 buffer = .ok r) ∧
    (∀ value : Int, ∃ r, Serialize_i64 buffer value = .ok r) ∧
    (∀ value : Int, ∃ r, Deserialize_i64 buffer value = .ok r) := by
  refine ⟨fun value => ?_, ?_, fun value => ?_, fun value => ?_⟩
  · by_cases h : buffer.length < VarUintSize value
    · exact ⟨_, Serialize_u64_short buffer value h⟩
    · obtain ⟨out, e, _⟩ := Serialize_u64_spec buffer value (Nat.le_of_not_lt h)
      exact ⟨_, e⟩
  · by_cases h : accepts_u64 buffer
    · exact ⟨_, Deserialize_u64_accept buffer h⟩
    · exact ⟨_, Deserialize_u64_reject buffer h⟩
  · by_cases h : buffer.length < VarIntSize value
    · exact ⟨_, Serialize_i64_short buffer value h⟩
    · obtain ⟨out, e, _⟩ := Serialize_i64_spec buffer value (Nat.le_of_not_lt h)
      exact ⟨_, e⟩
  · by_cases h : accepts_i64 buffer
    · exact ⟨_, Deserialize_i64_accept buffer value h⟩
    · obtain ⟨v, e⟩ := Deserialize_i64_reject buffer value h
      exact ⟨_, e⟩

/-- C25 (decoding depends only on the consumed prefix): for each of the two
decoders, if `Deserialize` succeeds on a buffer `b` with count `k` and value
`v`, then on every buffer `b'` whose first `k` octets are those of `b`,
whatever follows them, it also returns `k` and `v`. -/
theorem C25_prefix_dependence :
    (∀ (b b' : List Nat) (k v : Nat), Deserialize_u64 b = .ok (k, v) → k ≠ 0 →
      b'.take k = b.take k → Deserialize_u64 b' = .ok (k, v)) ∧
    (∀ (b b' : List Nat) (v0 v0' : Int) (k : Nat) (v : Int),
      Deserialize_i64 b v0 = .ok (k, v) → k ≠ 0 →
        b'.take k = b.take k → Deserialize_i64 b' v0' = .ok (k, v)) := by
  refine ⟨?_, ?_⟩
  · intro b b' k v h hk ht
    by_cases ha : accepts_u64 b
    · have hd := Deserialize_u64_accept b ha
      rw [h] at hd
      injection hd with hd
      injection hd with hk1 hv1
      rw [hk1] at ht
      obtain ⟨e, hlt'⟩ := findIdx_of_take_eq b b' ha.1 ht
      have ha' : accepts_u64 b' := by
        refine ⟨hlt', by rw [e]; exact ha.2.1, ?_⟩
        rw [e, getElem?_of_take_eq b b' _ 0 ht (by omega)]
        exact ha.2.2
      rw [Deserialize_u64_accept b' ha', e, ht, hv1, hk1]
    · rw [Deserialize_u64_reject b ha] at h
      injection h with h
      injection h with h1 _
      exact absurd h1.symm hk
  · intro b b' v0 v0' k v h hk ht
    by_cases ha : accepts_i64 b
    · have hd := Deserialize_i64_accept b v0 ha
      rw [h] at hd
      injection hd with hd
      injection hd with hk1 hv1
      rw [hk1] at ht
      obtain ⟨e, hlt'⟩ := findIdx_of_take_eq b b' ha.1 ht
      have h0 : b'[0]? = b[0]? := getElem?_of_take_eq b b' _ 0 ht (by omega)
      have ha' : accepts_i64 b' := by
        refine ⟨hlt', by rw [e]; exact ha.2.1, ?_⟩
        rw [e, h0]
        exact ha.2.2
      have hs : signInit b' = signInit b := by
        unfold signInit
        rw [List.getD_eq_getElem?_getD, List.getD_eq_getElem?_getD, h0]
      rw [Deserialize_i64_accept b' v0' ha', e, ht, hs, hv1, hk1]
    · obtain ⟨w, e⟩ := Deserialize_i64_reject b v0 ha
      rw [e] at h
      injection h with h
      injection h with h1 _
      exact absurd h1.symm hk

/-- Witness of C25: `{0x81, 0x00}` and `{0x80, 0x40}` followed by other
octets. -/
theorem C25_prefix_dependence_witness :
    Deserialize_u64 [0x81, 0x00, 0xff, 0x22] = .ok (2, 0x80) ∧
      Deserialize_i64 [0x80, 0x40, 0xff] 7 = .ok (2, 64) :=
  ⟨C25_prefix_dependence.1 [0x81, 0x00] [0x81, 0x00, 0xff, 0x22] 2 0x80
      (by decide) (by decide) (by decide),
    C25_prefix_dependence.2 [0x80, 0x40] [0x80, 0x40, 0xff] 5 7 2 64
      (by decide) (by decide) (by decide)⟩

/-- C23 (exact unsigned decoded value without wrap-around): for every buffer on
which the unsigned `Deserialize` succeeds with count `k`, the value produced is
the natural number `Σ_{i<k} (b[i] & 0x7f) * 2^(7 * (k - 1 - i))`, which is
below `2^64`; and at every iteration the accumulator, shifted left by 7, still
fits 64 bits, so no set bit is discarded. -/
theorem C23_unsigned_exact_value (b : List Nat) (k v : Nat)
    (h : Deserialize_u64 b = .ok (k, v)) (hk : k ≠ 0) :
    v = ∑ i in Finset.range k, (b.getD i 0 &&& 0x7f) * 2 ^ (7 * (k - 1 - i)) ∧
      v < 2 ^ 64 ∧
      ∀ m, m < k →
        toU64 (accum_u64 0 (b.take m) <<< 7) = accum_u64 0 (b.take m) <<< 7 := by
  obtain ⟨ha, hkj, hv, hv64⟩ := Deserialize_u64_exact b k v h hk
  have hkl : k ≤ b.length := by have := ha.1; omega
  have hl : (b.take k).length = k := by rw [List.length_take]; omega
  refine ⟨?_, hv64, fun m hm => ?_⟩
  · have := accumNat_eq_payloadSum (b.take k)
    rw [hl, payloadSum_take] at this
    rw [hv, this]
    rfl
  · obtain ⟨e, hlt⟩ := accum_u64_prefix b ha m (by omega)
    rw [e, Nat.shiftLeft_eq]
    unfold toU64
    exact Nat.mod_eq_of_lt hlt

/-- Witness of C23: `{0x83, 0xff, 0x7f}`, the example of the source header. -/
theorem C23_unsigned_exact_value_witness :
    Deserialize_u64 [0x83, 0xff, 0x7f] = .ok (3, 0xffff) ∧
      (0xffff = ∑ i in Finset.range 3,
          ([0x83, 0xff, 0x7f].getD i 0 &&& 0x7f) * 2 ^ (7 * (3 - 1 - i)) ∧
        0xffff < 2 ^ 64 ∧
        ∀ m, m < 3 →
          toU64 (accum_u64 0 ([0x83, 0xff, 0x7f].take m) <<< 7)
            = accum_u64 0 ([0x83, 0xff, 0x7f].take m) <<< 7) :=
  ⟨by decide, C23_unsigned_exact_value [0x83, 0xff, 0x7f] 3 0xffff (by decide) (by decide)⟩

/-- C24 (exact signed decoded value): for every buffer on which the signed
`Deserialize` succeeds with count `k`, with `U` the natural number
`Σ_{i<k} (b[i] & 0x7f) * 2^(7 * (k - 1 - i))` and `s` bit 6 of the first octet
(0 or 1), the value produced is the integer `U - s * 2^(7k)`; it lies in
`[-2^63, 2^63)`; and at every iteration the accumulator is shifted left by 7
without wrap-around. -/
theorem C24_signed_exact_value (b : List Nat) (v0 : Int) (k : Nat) (v : Int)
    (h : Deserialize_i64 b v0 = .ok (k, v)) (hk : k ≠ 0) :
    v = ((∑ i in Finset.range k, (b.getD i 0 &&& 0x7f) * 2 ^ (7 * (k - 1 - i)) : Nat) : Int)
        - (if b.getD 0 0 &&& 0x40 ≠ 0 then 1 else 0) * 2 ^ (7 * k) ∧
      (-2 ^ 63 ≤ v ∧ v < 2 ^ 63) ∧
      ∀ m, m < k →
        shl_i64 (accum_i64 (signInit b) (b.take m)) 7
          = accum_i64 (signInit b) (b.take m) * 128 := by
  obtain ⟨ha, hkj, hv, hlo, hhi⟩ := Deserialize_i64_exact b v0 k v h hk
  have hkl : k ≤ b.length := by have := ha.1; omega
  have hl : (b.take k).length = k := by rw [List.length_take]; omega
  refine ⟨?_, ⟨hlo, hhi⟩, fun m hm => ?_⟩
  · have hsum := accumNat_eq_payloadSum (b.take k)
    rw [hl, payloadSum_take] at hsum
    have hp : (128 : Int) ^ k = 2 ^ (7 * k) := by
      rw [pow_mul]; norm_num
    rw [hv, accumInt_shift, hl, hsum, hp]
    unfold signInit payloadSum
    split <;> ring
  · obtain ⟨e, h1, h2⟩ := accum_i64_prefix b ha m (by omega)
    rw [shl_i64_eq, e]
    exact wrapI64_of_range _ h1 h2

/-- Witness of C24: `{0xfe, 0x7f}` decodes to -129 = (126 * 128 + 127) - 2^14. -/
theorem C24_signed_exact_value_witness :
    Deserialize_i64 [0xfe, 0x7f] 5 = .ok (2, -129) ∧
      ((-129 : Int) = ((∑ i in Finset.range 2,
            ([0xfe, 0x7f].getD i 0 &&& 0x7f) * 2 ^ (7 * (2 - 1 - i)) : Nat) : Int)
          - (if [0xfe, 0x7f].getD 0 0 &&& 0x40 ≠ 0 then 1 else 0) * 2 ^ (7 * 2) ∧
        (-2 ^ 63 ≤ (-129 : Int) ∧ (-129 : Int) < 2 ^ 63) ∧
        ∀ m, m < 2 →
          shl_i64 (accum_i64 (signInit [0xfe, 0x7f]) ([0xfe, 0x7f].take m)) 7
            = accum_i64 (signInit [0xfe, 0x7f]) ([0xfe, 0x7f].take m) * 128) :=
  ⟨by decide, C24_signed_exact_value [0xfe, 0x7f] 5 2 (-129) (by decide) (by decide)⟩

/-- C22 (idempotent re-encode): for every unsigned 64-bit `v`, and likewise for
every signed 64-bit `v` with the signed operations, encoding `v` into a buffer
of at least 10 octets, decoding the result and encoding the decoded value again
returns the same count and the same octets as the first encoding, whether the
second encoding goes into another buffer of at least 10 octets or in place. -/
theorem C22_idempotent_reencode :
    (∀ (buffer buffer2 : List Nat) (v : Nat), v < 2 ^ 64 → 10 ≤ buffer.length →
      10 ≤ buffer2.length →
        ∃ n out v' out2, n ≠ 0 ∧ Serialize_u64 buffer v = .ok (n, out) ∧
          Deserialize_u64 out = .ok (n, v') ∧
          Serialize_u64 buffer2 v' = .ok (n, out2) ∧ out2.take n = out.take n ∧
          Serialize_u64 out v' = .ok (n, out)) ∧
    (∀ (buffer buffer2 : List Nat) (v v0 : Int), -2 ^ 63 ≤ v → v < 2 ^ 63 →
      10 ≤ buffer.length → 10 ≤ buffer2.length →
        ∃ n out v' out2, n ≠ 0 ∧ Serialize_i64 buffer v = .ok (n, out) ∧
          Deserialize_i64 out v0 = .ok (n, v') ∧
          Serialize_i64 buffer2 v' = .ok (n, out2) ∧ out2.take n = out.take n ∧
          Serialize_i64 out v' = .ok (n, out)) := by
  refine ⟨?_, ?_⟩
  · intro buffer buffer2 v hv hlen hlen2
    have hle := VarUintSize_le v
    have hpos := VarUintSize_pos v
    obtain ⟨out, e, hl, hp⟩ := Serialize_u64_spec buffer v (by omega)
    obtain ⟨out2, e2, _, hp2⟩ := Serialize_u64_spec buffer2 v (by omega)
    obtain ⟨out3, e3, hl3, hp3⟩ := Serialize_u64_spec out v (by omega)
    have h3 : out3 = out := by
      apply List.ext_getElem?
      intro j
      rw [hp3 j, hp j]
      split <;> rfl
    rw [h3] at e3
    refine ⟨_, out, v, out2, by omega, e, roundtrip_u64 buffer v _ out hv e (by omega),
      e2, take_eq_take out out2 _ (fun j hj => ?_), e3⟩
    rw [hp2 j, hp j, if_pos hj, if_pos hj]
  · intro buffer buffer2 v v0 hlo hhi hlen hlen2
    have hle := VarIntSize_le v
    have hpos := VarIntSize_pos v
    obtain ⟨out, e, hl, hp⟩ := Serialize_i64_spec buffer v (by omega)
    obtain ⟨out2, e2, _, hp2⟩ := Serialize_i64_spec buffer2 v (by omega)
    obtain ⟨out3, e3, hl3, hp3⟩ := Serialize_i64_spec out v (by omega)
    have h3 : out3 = out := by
      apply List.ext_getElem?
      intro j
      rw [hp3 j, hp j]
      split <;> rfl
    rw [h3] at e3
    refine ⟨_, out, v, out2, by omega, e,
      roundtrip_i64 buffer v _ out v0 hlo hhi e (by omega),
      e2, take_eq_take out out2 _ (fun j hj => ?_), e3⟩
    rw [hp2 j, hp j, if_pos hj, if_pos hj]

/-- Witness of C22 at `v = 0x80` (unsigned) and `v = -129` (signed). -/
theorem C22_idempotent_reencode_witness :
    (∃ n out v' out2, n ≠ 0 ∧ Serialize_u64 (List.replicate 10 0x22) 0x80 = .ok (n, out) ∧
      Deserialize_u64 out = .ok (n, v') ∧
      Serialize_u64 (List.replicate 12 0) v' = .ok (n, out2) ∧ out2.take n = out.take n ∧
      Serialize_u64 out v' = .ok (n, out)) ∧
    (∃ n out v' out2, n ≠ 0 ∧ Serialize_i64 (List.replicate 10 0x22) (-129) = .ok (n, out) ∧
      Deserialize_i64 out 5 = .ok (n, v') ∧
      Serialize_i64 (List.replicate 12 0) v' = .ok (n, out2) ∧ out2.take n = out.take n ∧
      Serialize_i64 out v' = .ok (n, out)) :=
  ⟨C22_idempotent_reencode.1 (List.replicate 10 0x22) (List.replicate 12 0) 0x80
      (by decide) (by decide) (by decide),
    C22_idempotent_reencode.2 (List.replicate 10 0x22) (List.replicate 12 0) (-129) 5
      (by norm_num) (by norm_num) (by decide) (by decide)⟩

end VarIntEncoder
